import Mathlib

/-!
Verification of the panagram bitmap storage-and-query engine
(`src/panagram/index.py`), shallowly embedded in Lean 4.

Bytes are modelled as natural numbers (values below 256 where it matters),
byte streams as `List Nat`, and the block-compressed bitmap file as its
list of decompressed block contents together with the compressed size of
each block.  All definitions are executable and follow the Python source
line by line; fallible operations return `Except`.
-/

namespace Panagram

/-- Numpy slicing `xs[::s]` (stride `s ≥ 1`), written with an explicit
skip counter so that it is structurally recursive and computes by `rfl`.
`everyNthAux s k xs` skips the first `k` elements, keeps the next one,
then repeats with period `s`. -/
def everyNthAux (s : Nat) : Nat → List α → List α
  | _, [] => []
  | 0, x :: xs => x :: everyNthAux s (s - 1) xs
  | k + 1, _ :: xs => everyNthAux s k xs

/-- `everyNth s xs` is numpy `xs[::s]`: elements at indices `0, s, 2s, …`. -/
def everyNth (s : Nat) (xs : List α) : List α := everyNthAux s 0 xs

theorem everyNthAux_eq_drop (s : Nat) :
    ∀ (xs : List α) (k : Nat), everyNthAux s k xs = everyNth s (xs.drop k) := by
  intro xs
  induction xs with
  | nil => intro k; cases k <;> simp [everyNthAux, everyNth]
  | cons x xs ih =>
      intro k
      cases k with
      | zero => simp [everyNth]
      | succ k => simpa [everyNthAux] using ih k

theorem everyNth_nil (s : Nat) : everyNth s ([] : List α) = [] := rfl

theorem everyNth_cons (s : Nat) (x : α) (xs : List α) :
    everyNth s (x :: xs) = x :: everyNth s (xs.drop (s - 1)) := by
  rw [everyNth, show everyNthAux s 0 (x :: xs) = x :: everyNthAux s (s - 1) xs from rfl,
    everyNthAux_eq_drop]

/-- Length of `xs[::s]` is `⌈|xs| / s⌉` for `s ≥ 1`. -/
theorem everyNth_length (s : Nat) (hs : 0 < s) :
    (xs : List α) → (everyNth s xs).length = (xs.length + s - 1) / s
  | [] => by
      rw [everyNth_nil]
      simp [Nat.div_eq_of_lt (show s - 1 < s by omega)]
  | x :: xs => by
      rw [everyNth_cons, List.length_cons,
        everyNth_length s hs (xs.drop (s - 1)), List.length_drop]
      simp only [List.length_cons]
      rcases le_or_lt (s - 1) xs.length with hle | hgt
      · have h1 : xs.length - (s - 1) + s - 1 = xs.length := by omega
        have h2 : xs.length + 1 + s - 1 = xs.length + s := by omega
        rw [h1, h2, Nat.add_div_right _ hs]
      · have h1 : xs.length - (s - 1) = 0 := by omega
        have h2 : xs.length + 1 + s - 1 = xs.length + s := by omega
        rw [h1, h2, Nat.add_div_right _ hs,
          Nat.div_eq_of_lt (show 0 + s - 1 < s by omega),
          Nat.div_eq_of_lt (show xs.length < s by omega)]
termination_by xs => xs.length
decreasing_by simp; omega

theorem getD_drop_add (xs : List α) (n i : Nat) (d : α) :
    (xs.drop n).getD i d = xs.getD (n + i) d := by
  induction xs generalizing n with
  | nil => simp
  | cons x xs ih =>
      cases n with
      | zero => simp
      | succ n =>
          have : n + 1 + i = (n + i) + 1 := by omega
          rw [List.drop_succ_cons, ih n, this, List.getD_cons_succ]

/-- Element `i` of `xs[::s]` is element `s * i` of `xs` (for `s ≥ 1`),
with the default returned on both sides past the end. -/
theorem everyNth_getD (s : Nat) (hs : 0 < s) :
    (xs : List α) → (i : Nat) → (d : α) →
      (everyNth s xs).getD i d = xs.getD (s * i) d
  | [], i, d => by rw [everyNth_nil]; simp
  | x :: xs, 0, d => by rw [everyNth_cons]; rfl
  | x :: xs, i + 1, d => by
      rw [everyNth_cons, List.getD_cons_succ,
        everyNth_getD s hs (xs.drop (s - 1)) i d, getD_drop_add]
      have h1 : s * (i + 1) = (s - 1 + s * i) + 1 := by
        rw [Nat.mul_succ]; omega
      rw [h1, List.getD_cons_succ]
termination_by xs => xs.length
decreasing_by simp; omega

theorem mem_of_mem_everyNth (s : Nat) :
    (xs : List α) → a ∈ everyNth s xs → a ∈ xs
  | [], h => by rw [everyNth_nil] at h; exact absurd h (List.not_mem_nil a)
  | x :: xs, h => by
      rw [everyNth_cons] at h
      rcases List.mem_cons.mp h with h | h
      · exact h ▸ List.mem_cons_self x xs
      · exact List.mem_cons_of_mem x
          (List.drop_subset (s - 1) xs (mem_of_mem_everyNth s (xs.drop (s - 1)) h))
termination_by xs => xs.length
decreasing_by simp; omega

theorem everyNth_one : (xs : List α) → everyNth 1 xs = xs
  | [] => rfl
  | x :: xs => by
      rw [everyNth, show everyNthAux 1 0 (x :: xs) = x :: everyNthAux 1 0 xs from rfl]
      exact congrArg (x :: ·) (everyNth_one xs)

/-- Fuel-driven helper for `chunk`, structurally recursive so it computes. -/
def chunkAux (n : Nat) : Nat → List α → List (List α)
  | 0, _ => []
  | _ + 1, [] => []
  | fuel + 1, x :: xs => ((x :: xs).take n) :: chunkAux n fuel ((x :: xs).drop n)

/-- Numpy `reshape((len(xs) / n, n))` on a flat buffer: split `xs` into
consecutive chunks of `n` elements. -/
def chunk (n : Nat) (xs : List α) : List (List α) := chunkAux n xs.length xs

theorem chunkAux_flatten (n : Nat) (hn : 0 < n) (rs : List (List α))
    (hr : ∀ r ∈ rs, r.length = n) :
    ∀ fuel, rs.flatten.length ≤ fuel → chunkAux n fuel rs.flatten = rs := by
  induction rs with
  | nil => intro fuel _; cases fuel <;> rfl
  | cons r rs ih =>
      intro fuel hf
      have hrl : r.length = n := hr r (List.mem_cons_self r rs)
      have hrs : ∀ q ∈ rs, q.length = n := fun q hq => hr q (List.mem_cons_of_mem r hq)
      cases r with
      | nil => simp at hrl; omega
      | cons y r =>
          rw [List.flatten_cons] at hf ⊢
          simp only [List.length_append, List.length_cons] at hf
          cases fuel with
          | zero => omega
          | succ fuel =>
              show ((y :: r) ++ rs.flatten).take n :: chunkAux n fuel (((y :: r) ++ rs.flatten).drop n)
                  = (y :: r) :: rs
              rw [List.take_left' hrl, List.drop_left' hrl, ih hrs fuel (by omega)]

theorem chunk_flatten (n : Nat) (hn : 0 < n) (rs : List (List α))
    (hr : ∀ r ∈ rs, r.length = n) : chunk n rs.flatten = rs :=
  chunkAux_flatten n hn rs hr rs.flatten.length (Nat.le_refl _)

theorem flatten_drop_mul (n : Nat) (rs : List (List α))
    (h : ∀ r ∈ rs, r.length = n) (i : Nat) :
    rs.flatten.drop (n * i) = (rs.drop i).flatten := by
  induction i generalizing rs with
  | zero => simp
  | succ i ih =>
      cases rs with
      | nil => simp
      | cons r rs =>
          have hr : r.length = n := h r (List.mem_cons_self r rs)
          have hrs : ∀ q ∈ rs, q.length = n := fun q hq => h q (List.mem_cons_of_mem r hq)
          rw [List.flatten_cons, List.drop_succ_cons,
            show n * (i + 1) = n + n * i by ring, ← List.drop_drop, ← hr,
            List.drop_left, hr, ih rs hrs]

theorem flatten_take_mul (n : Nat) (rs : List (List α))
    (h : ∀ r ∈ rs, r.length = n) (m : Nat) :
    rs.flatten.take (n * m) = (rs.take m).flatten := by
  induction m generalizing rs with
  | zero => simp
  | succ m ih =>
      cases rs with
      | nil => simp
      | cons r rs =>
          have hr : r.length = n := h r (List.mem_cons_self r rs)
          have hrs : ∀ q ∈ rs, q.length = n := fun q hq => h q (List.mem_cons_of_mem r hq)
          rw [List.flatten_cons, List.take_succ_cons, List.flatten_cons,
            List.take_append_eq_append_take,
            List.take_of_length_le
              (by rw [hr, Nat.mul_succ]; omega : r.length ≤ n * (m + 1)),
            show n * (m + 1) - r.length = n * m by rw [hr, Nat.mul_succ]; omega,
            ih rs hrs]

theorem flatten_drop_sumTake (rs : List (List α)) :
    ∀ c : Nat, rs.flatten.drop (((rs.take c).map List.length).sum) = (rs.drop c).flatten := by
  induction rs with
  | nil => intro c; simp
  | cons r rs ih =>
      intro c
      cases c with
      | zero => simp
      | succ c =>
          rw [List.take_succ_cons, List.map_cons, List.sum_cons, List.flatten_cons,
            List.drop_succ_cons, ← List.drop_drop, List.drop_left, ih c]

/-- Slicing `j, …, j + m` out of the flattened stream, starting after the
first `c` sublists, is slicing inside sublist `c` (when it stays inside). -/
theorem flatten_slice (rs : List (List α)) (c j m : Nat) (hc : c < rs.length)
    (hjm : j + m ≤ (rs.getD c []).length) :
    (rs.flatten.drop (((rs.take c).map List.length).sum + j)).take m
      = ((rs.getD c []).drop j).take m := by
  have hget : rs.getD c [] = rs[c] := List.getD_eq_getElem rs [] hc
  rw [← List.drop_drop, flatten_drop_sumTake rs c, List.drop_eq_getElem_cons hc,
    List.flatten_cons, ← hget,
    List.drop_append_of_le_length (by omega : j ≤ (rs.getD c []).length),
    List.take_append_of_le_length
      (by rw [List.length_drop]; omega : m ≤ ((rs.getD c []).drop j).length)]

/-!  ## The on-disk model

`BgzFile` models one block-compressed bitmap file (`bitmap.<step>.gz`):
`contents` holds the decompressed bytes of each BGZF block in order and
`csizes` the compressed size of each block, so block `i` starts at
compressed offset `csizes[0] + ⋯ + csizes[i-1]` and at decompressed
offset `|contents[0]| + ⋯ + |contents[i-1]|`. -/
structure BgzFile where
  csizes : List Nat
  contents : List (List Nat)

/-- Exclusive prefix sums: `cumsum [a, b, c] = [0, a, a + b]`. -/
def cumsum (xs : List Nat) : List Nat :=
  (List.range xs.length).map (fun i => (xs.take i).sum)

/-- The (compressed offset, decompressed offset) pair of every block of a
file, block `0` giving the synthetic leading `(0, 0)` entry. -/
def BgzFile.blockEntries (f : BgzFile) : List (Nat × Nat) :=
  (cumsum f.csizes).zip (cumsum (f.contents.map List.length))

/-- The full decompressed byte stream of a file. -/
def BgzFile.stream (f : BgzFile) : List Nat := f.contents.flatten

/-- `Genome.load_bgz_blocks`: the `.gzi` index file is a sequence of
64-bit words — a block count `n` followed by `n` (compressed offset,
decompressed offset) pairs; loading reads the count, then that many
pairs, and prepends a synthetic `(0, 0)` entry. -/
def load_bgz_blocks (ws : List Nat) : List (Nat × Nat) :=
  (0, 0) :: toPairs ((ws.drop 1).take (2 * ws.headD 0))
where
  toPairs : List Nat → List (Nat × Nat)
    | a :: b :: rest => (a, b) :: toPairs rest
    | _ => []

/-- The serialized `.gzi` word sequence for a pair list. -/
def gziWords (pairs : List (Nat × Nat)) : List Nat :=
  pairs.length :: (pairs.map (fun p => [p.1, p.2])).flatten

/-- `np.searchsorted(xs, t, side="right")` on a sorted array: the number
of elements `≤ t`. -/
def searchsortedRight (xs : List Nat) (t : Nat) : Nat :=
  xs.countP (fun x => decide (x ≤ t))

/-- Seek-and-read of the Biopython `BgzfReader` at a virtual position:
find the block whose compressed start is `blkStart`, skip `blkOffs`
decompressed bytes inside it, then read `n` bytes, continuing across
blocks and stopping at end of file.  This models seek positions within
the decompressed stream exactly (a short read at end of file silently
returns the remaining bytes, as `BgzfReader.read` does); a seek target
past the decompressed stream raises `ValueError` in
`BgzfReader.seek`/`make_virtual_offset` and lies outside this
definition's faithful domain, so every theorem below keeps its reads
within the stream. -/
def bgzfRead (f : BgzFile) (blkStart blkOffs n : Nat) : List Nat :=
  (((f.contents.drop
      ((cumsum f.csizes).findIdx (fun r => decide (r = blkStart)))).flatten).drop
    blkOffs).take n

/-- The random-access read path of `Genome._query_bytes` (lines 930-935):
binary-search the loaded block index for the last entry whose decompressed
offset is at most the target, seek to that block's compressed start plus
the in-block delta, and read `n` bytes. -/
def readRange (idx : List (Nat × Nat)) (f : BgzFile) (t n : Nat) : List Nat :=
  let blk := searchsortedRight (idx.map Prod.snd) t - 1
  let e := idx.getD blk (0, 0)
  bgzfRead f e.1 (t - e.2) n

theorem cumsum_length (xs : List Nat) : (cumsum xs).length = xs.length := by
  simp [cumsum]

theorem cumsum_getD (xs : List Nat) (i : Nat) (hi : i < xs.length) :
    (cumsum xs).getD i 0 = (xs.take i).sum := by
  rw [List.getD_eq_getElem _ _ (by rw [cumsum_length]; exact hi)]
  simp [cumsum]

theorem sum_take_le_sum_take (xs : List Nat) (i j : Nat) (hij : i ≤ j) :
    (xs.take i).sum ≤ (xs.take j).sum := by
  conv_rhs => rw [← List.take_append_drop i (xs.take j)]
  rw [List.sum_append, List.take_take, Nat.min_eq_left hij]
  omega

theorem sum_pos_of_ne_nil (l : List Nat) (hne : l ≠ []) (hpos : ∀ x ∈ l, 0 < x) :
    0 < l.sum := by
  cases l with
  | nil => exact absurd rfl hne
  | cons x l =>
      have := hpos x (List.mem_cons_self x l)
      rw [List.sum_cons]
      omega

theorem sum_take_lt_sum_take (xs : List Nat) (hpos : ∀ x ∈ xs, 0 < x)
    (i j : Nat) (hij : i < j) (hj : j ≤ xs.length) :
    (xs.take i).sum < (xs.take j).sum := by
  have h1 : xs.take i = (xs.take j).take i := by
    rw [List.take_take, Nat.min_eq_left (by omega)]
  have hsplit := List.take_append_drop i (xs.take j)
  have hlen : ((xs.take j).drop i).length = j - i := by
    rw [List.length_drop, List.length_take, Nat.min_eq_left hj]
  have hne : (xs.take j).drop i ≠ [] := by
    intro h; rw [h] at hlen; simp at hlen; omega
  have hposd : ∀ x ∈ (xs.take j).drop i, 0 < x := fun x hx =>
    hpos x (List.take_subset j xs (List.drop_subset i (xs.take j) hx))
  have := sum_pos_of_ne_nil _ hne hposd
  calc (xs.take i).sum = ((xs.take j).take i).sum := by rw [h1]
    _ < ((xs.take j).take i).sum + (((xs.take j).drop i)).sum := by omega
    _ = (xs.take j).sum := by rw [← List.sum_append, hsplit]

theorem cumsum_pairwise_le (xs : List Nat) :
    List.Pairwise (fun a b => a ≤ b) (cumsum xs) := by
  have h := List.pairwise_lt_range xs.length
  exact (h.map _ (fun a b hab => sum_take_le_sum_take xs a b (Nat.le_of_lt hab)))

/-- On a sorted array, `np.searchsorted(xs, t, side="right")` (the count of
elements `≤ t`) bounds exactly the indices whose element is `≤ t`. -/
theorem sorted_countP_iff (t : Nat) :
    ∀ (xs : List Nat), List.Pairwise (fun a b => a ≤ b) xs →
      ∀ j, j < xs.length →
        (xs.getD j 0 ≤ t ↔ j < xs.countP (fun x => decide (x ≤ t))) := by
  intro xs
  induction xs with
  | nil => intro _ j hj; simp at hj
  | cons x xs ih =>
      intro hp j hj
      have hx : ∀ b ∈ xs, x ≤ b := fun b hb => (List.pairwise_cons.mp hp).1 b hb
      have hxs : List.Pairwise (fun a b => a ≤ b) xs := (List.pairwise_cons.mp hp).2
      rw [List.countP_cons]
      by_cases hxt : x ≤ t
      · have hpa : (decide (x ≤ t)) = true := by simpa using hxt
        rw [hpa, if_pos rfl]
        cases j with
        | zero =>
            simp only [List.getD_cons_zero]
            constructor
            · intro _; omega
            · intro _; exact hxt
        | succ j =>
            rw [List.getD_cons_succ]
            have hj2 : j < xs.length := by simpa using hj
            rw [ih hxs j hj2]
            omega
      · have hpa : (decide (x ≤ t)) = false := by simpa using hxt
        have hzero : xs.countP (fun x => decide (x ≤ t)) = 0 := by
          rw [List.countP_eq_zero]
          intro a ha
          have : x ≤ a := hx a ha
          simp only [decide_eq_true_eq]
          omega
        rw [hpa, if_neg (by simp), hzero]
        cases j with
        | zero =>
            simp only [List.getD_cons_zero]
            constructor
            · intro h; exact absurd h hxt
            · intro h; omega
        | succ j =>
            rw [List.getD_cons_succ]
            have hj2 : j < xs.length := by simpa using hj
            constructor
            · intro h
              have hmem : xs.getD j 0 ∈ xs :=
                List.getD_eq_getElem xs 0 hj2 ▸ List.getElem_mem hj2
              have := hx _ hmem
              exact absurd (by omega : x ≤ t) hxt
            · intro h; omega

theorem findIdx_of_distinct (xs : List Nat) :
    ∀ i, i < xs.length → (∀ j, j < i → xs.getD j 0 ≠ xs.getD i 0) →
      xs.findIdx (fun r => decide (r = xs.getD i 0)) = i := by
  induction xs with
  | nil => intro i hi; simp at hi
  | cons x xs ih =>
      intro i hi hdist
      cases i with
      | zero => simp [List.findIdx_cons]
      | succ i =>
          have hx : x ≠ (x :: xs).getD (i + 1) 0 := hdist 0 (Nat.succ_pos i)
          rw [List.getD_cons_succ] at hx ⊢
          rw [List.findIdx_cons]
          have hi2 : i < xs.length := by simpa using hi
          have hdist2 : ∀ j, j < i → xs.getD j 0 ≠ xs.getD i 0 := by
            intro j hj
            have := hdist (j + 1) (by omega)
            rwa [List.getD_cons_succ, List.getD_cons_succ] at this
          have hb : (decide (x = xs.getD i 0)) = false := by simpa using hx
          rw [hb, cond_false, ih i hi2 hdist2]

theorem zip_getD (as bs : List Nat) (i : Nat) (hi : i < as.length) (hib : i < bs.length) :
    (as.zip bs).getD i (0, 0) = (as.getD i 0, bs.getD i 0) := by
  rw [List.getD_eq_getElem _ _ (by rw [List.length_zip]; omega), List.getElem_zip,
    List.getD_eq_getElem _ _ hi, List.getD_eq_getElem _ _ hib]

theorem zip_map_snd (as bs : List Nat) (h : as.length = bs.length) :
    (as.zip bs).map Prod.snd = bs := by
  induction as generalizing bs with
  | nil => cases bs with
    | nil => rfl
    | cons b bs => simp at h
  | cons a as ih =>
      cases bs with
      | nil => simp at h
      | cons b bs =>
          simp only [List.zip_cons_cons, List.map_cons]
          rw [ih bs (by simpa using h)]

/-- Central guarantee of the random-access decoder (§4.3): reading `n`
bytes at decompressed offset `t` through the block index returns exactly
the bytes of the decompressed stream starting at offset `t`. -/
theorem readRange_stream (f : BgzFile) (hcs : ∀ x ∈ f.csizes, 0 < x)
    (hlen : f.csizes.length = f.contents.length) (t n : Nat) :
    readRange f.blockEntries f t n = (f.stream.drop t).take n := by
  cases hcont : f.contents with
  | nil =>
      have hc : f.csizes = [] := by
        have := hlen; rw [hcont] at this; simpa using List.eq_nil_of_length_eq_zero this
      rw [readRange, BgzFile.blockEntries, BgzFile.stream, bgzfRead, hcont, hc]
      simp [cumsum]
  | cons c0 cont =>
      set m := f.contents.length with hm
      have hmpos : 0 < m := by rw [hm, hcont]; simp
      set ds := cumsum (f.contents.map List.length) with hds
      set cs := cumsum f.csizes with hcsdef
      have hdsl : ds.length = m := by rw [hds, cumsum_length, List.length_map]
      have hcsl : cs.length = m := by rw [hcsdef, cumsum_length, hlen]
      have hsnd : f.blockEntries.map Prod.snd = ds := by
        rw [BgzFile.blockEntries, ← hds, ← hcsdef, zip_map_snd cs ds (by omega)]
      set k := searchsortedRight ds t with hk
      have hds0 : ds.getD 0 0 ≤ t := by
        rw [hds, cumsum_getD _ 0 (by rw [List.length_map]; omega)]
        simp
      have hkpos : 0 < k := by
        rw [hk, searchsortedRight]
        exact (sorted_countP_iff t ds (by rw [hds]; exact cumsum_pairwise_le _) 0
          (by omega)).mp hds0
      have hkle : k ≤ m := by
        rw [hk, searchsortedRight, ← hdsl]
        exact List.countP_le_length _
      have hkeq : ds.countP (fun x => decide (x ≤ t)) = k := by
        rw [hk, searchsortedRight]
      set blk := k - 1 with hblk
      have hblkm : blk < m := by omega
      have hdsblk : ds.getD blk 0 ≤ t :=
        (sorted_countP_iff t ds (by rw [hds]; exact cumsum_pairwise_le _) blk
          (by omega)).mpr (by rw [hkeq]; omega)
      have hidx : f.blockEntries.getD blk (0, 0) = (cs.getD blk 0, ds.getD blk 0) := by
        rw [BgzFile.blockEntries, ← hds, ← hcsdef]
        exact zip_getD cs ds blk (by omega) (by omega)
      have hfind : cs.findIdx (fun r => decide (r = cs.getD blk 0)) = blk := by
        apply findIdx_of_distinct cs blk (by omega)
        intro j hj
        rw [hcsdef, cumsum_getD _ j (by omega), cumsum_getD _ blk (by omega)]
        exact Nat.ne_of_lt (sum_take_lt_sum_take f.csizes hcs j blk hj (by omega))
      have hdrop : (f.contents.drop blk).flatten = f.stream.drop (ds.getD blk 0) := by
        rw [BgzFile.stream, ← flatten_drop_sumTake f.contents blk]
        congr 1
        rw [hds, cumsum_getD _ blk (by rw [List.length_map]; omega), List.map_take]
      rw [readRange, hsnd, ← hk, ← hblk, hidx, bgzfRead, ← hcsdef, hfind, hdrop,
        List.drop_drop]
      congr 2
      omega

/-!  ## The query engine (`Genome`, read mode) -/

/-- Bits of one byte, least-significant first, as produced per byte by
`np.unpackbits(…, bitorder="little")`. -/
def byteBits (b : Nat) : List Bool := (List.range 8).map (fun j => b.testBit j)

/-- `Genome._bytes_to_bits`: unpack each packed row little-endian and keep
the first `G` bits (`[:, :self.ngenomes]`). -/
def bytesToBits (G : Nat) (pac : List (List Nat)) : List (List Bool) :=
  pac.map (fun row => ((row.map byteBits).flatten).take G)

/-- The boolean Presence Row encoded by one packed byte row. -/
def unpackRow (G : Nat) (row : List Nat) : List Bool :=
  ((row.map byteBits).flatten).take G

/-- The `bstep` selection loop of `Genome.query` (lines 907-910): starting
from 1, keep the largest stored step that evenly divides the requested
step. -/
def selectBstep (steps : List Nat) (step : Nat) : Nat :=
  steps.foldl (fun b s => if step % s = 0 then max b s else b) 1

/-- Read-mode state of one anchor genome: genome count, per-chromosome
position counts (`chrs.tsv` sizes, in iteration order), the stored
resolution steps, and per step the bitmap file and the loaded block
index. -/
structure GenomeR where
  ngenomes : Nat
  sizes : List Nat
  steps : List Nat
  bitmaps : Nat → BgzFile
  blocks : Nat → List (Nat × Nat)

/-- `Genome.nbytes = ceil(ngenomes / 8)`. -/
def GenomeR.nbytes (g : GenomeR) : Nat := (g.ngenomes + 7) / 8

/-- `np.ceil(size / step)` as used to build the offset table. -/
def stepSize (sz s : Nat) : Nat := (sz + s - 1) / s

/-- `Genome.set_chrs`: the cumulative-offset table — row count, at stored
step `s`, of all chromosomes before chromosome `c` in iteration order
(`cumsum().shift(fill_value=0)`). -/
def GenomeR.offsets (g : GenomeR) (c s : Nat) : Nat :=
  ((g.sizes.take c).map (fun z => stepSize z s)).sum

/-- `Genome.seq_len`. -/
def GenomeR.seqLen (g : GenomeR) (c : Nat) : Nat := g.sizes.getD c 0

/-- Failures of the read path: a negative byte count passed to
`BgzfReader.read` (Biopython raises on it), or a buffer whose length is
not a multiple of the row width (numpy `reshape` raises on it). -/
inductive QueryErr where
  | negativeRead : QueryErr
  | reshapeError : QueryErr
deriving DecidableEq

/-- `Genome._query_bytes` (lines 924-944): compute the decompressed byte
offset from the cumulative offset table, read `(end - start) // bstep`
rows of `nbytes` bytes through the block index, reshape into rows, and
keep every `(step // bstep)`-th row when that stride exceeds 1. -/
def queryBytes (g : GenomeR) (c start stop step bstep : Nat) :
    Except QueryErr (List (List Nat)) :=
  let byteStart := g.nbytes * (g.offsets c bstep + start / bstep)
  if stop < start then
    Except.error QueryErr.negativeRead
  else
    let length := (stop - start) / bstep
    let buf := readRange (g.blocks bstep) (g.bitmaps bstep) byteStart (length * g.nbytes)
    if buf.length % g.nbytes = 0 then
      let pac := chunk g.nbytes buf
      Except.ok (if 1 < step / bstep then everyNth (step / bstep) pac else pac)
    else
      Except.error QueryErr.reshapeError

/-- `Genome.query` (lines 906-919): pick `bstep`, default `start` to 0 and
`end` to the chromosome length, read the packed rows and unpack them. -/
def GenomeR.query (g : GenomeR) (c : Nat) (start stop : Option Nat) (step : Nat) :
    Except QueryErr (List (List Bool)) :=
  let bstep := selectBstep g.steps step
  (queryBytes g c (start.getD 0) (stop.getD (g.seqLen c)) step bstep).map
    (bytesToBits g.ngenomes)

/-- Row-wise genome count: `presence_matrix.sum(axis=1)` for one row. -/
def occRow (r : List Bool) : Nat := r.count true

/-- `Genome.bitsum_count` (lines 895-900): `pd.Series(occs).value_counts()`,
i.e. the multiset of occurrence values as a count function. -/
def bitsum_count (occs : List Nat) : Nat → Nat := fun v => occs.count v

/-- `Genome.query_occ_counts` (lines 902-904). -/
def GenomeR.query_occ_counts (g : GenomeR) (c : Nat) (start stop : Option Nat)
    (step : Nat) : Except QueryErr (Nat → Nat) :=
  (g.query c start stop step).map (fun m => bitsum_count (m.map occRow))

/-- `np.unique` of a list of naturals: its distinct values in ascending
order. -/
def sortedUnique (occs : List Nat) : List Nat :=
  (List.range (occs.foldr max 0 + 1)).filter (fun v => occs.contains v)

/-- `Index.bitsum_count` (lines 486-491): `ret = np.zeros(G)` followed by
the fancy assignment `ret[occs - 1] = counts` over the sorted unique
occurrence values; the value 0 maps to numpy index `-1`, which wraps
around to slot `G - 1`, and later assignments overwrite earlier ones. -/
def index_bitsum_count (G : Nat) (occs : List Nat) : List Nat :=
  (sortedUnique occs).foldl
    (fun ret v => ret.set (if v = 0 then G - 1 else v - 1) (occs.count v))
    (List.replicate G 0)

/-!  ## The bit packer (`Genome._query_kmc_bytes` / `_write_bitmap`) -/

/-- `Index.kmc_bitvec_count = ceil(n_samples / 32)`: the number of
32-genome counter databases. -/
def kmcBitvecCount (G : Nat) : Nat := (G + 31) / 32

/-- The four bytes of a 32-bit counter value, little-endian
(`pac32.view("uint8")`). -/
def u32bytes (v : Nat) : List Nat :=
  [v % 256, v / 256 % 256, v / 65536 % 256, v / 16777216 % 256]

/-- The byte count kept from database `dbi` in `_query_kmc_bytes` (lines
1004-1009).  Note the comparison is with `len(self.kmc_dbs)` itself, not
`len(self.kmc_dbs) - 1`, exactly as in the source. -/
def group_bytes (nb ndbs dbi : Nat) : Nat :=
  if nb ≤ 4 then nb
  else if dbi = ndbs ∧ nb % 4 ≠ 0 then nb % 4
  else 4

/-- `Genome._query_kmc_bytes` (lines 996-1011): one truncated byte group
per position for database `dbi`. -/
def query_kmc_bytes (nb ndbs dbi : Nat) (vec : List Nat) : List (List Nat) :=
  vec.map (fun v => (u32bytes v).take (group_bytes nb ndbs dbi))

/-- The packed rows built by `Genome._write_bitmap` (lines 1016-1025):
for each position, the concatenation over all counter databases of that
database's byte group (`np.concatenate(arr, axis=1)`). -/
def write_bitmap_rows (nb : Nat) (vecs : List (List Nat)) : List (List Nat) :=
  (List.range (vecs.headD []).length).map (fun p =>
    (vecs.enum.map (fun iv =>
      (u32bytes (iv.2.getD p 0)).take (group_bytes nb vecs.length iv.1))).flatten)

/-- The decompressed byte stream of the step-`s` bitmap file: for each
chromosome in iteration order, every `s`-th packed row, flattened
(`_write_bitmap` writes `pacbytes[::s].tobytes()` per chromosome). -/
def writeStream (chrsRows : List (List (List Nat))) (s : Nat) : List Nat :=
  (chrsRows.map (fun rows => (everyNth s rows).flatten)).flatten

/-- All step-`s` rows of the genome in write order, grouped per
chromosome. -/
def stepRows (chrsRows : List (List (List Nat))) (s : Nat) : List (List (List Nat)) :=
  chrsRows.map (everyNth s)

/-- Well-formedness of a read-mode genome with respect to the step-1 rows
`chrsRows` it was built from: at least one genome, every packed row
`nbytes` wide, the size table matching the written row counts, positive
stored steps, and — for every stored step — a bitmap file whose
decompressed stream is exactly the written stream, a loaded block index
equal to the file's block boundary list, one compressed size per block,
and positive compressed block sizes. -/
structure Valid (g : GenomeR) (chrsRows : List (List (List Nat))) : Prop where
  one_genome : 1 ≤ g.ngenomes
  row_width : ∀ rows ∈ chrsRows, ∀ r ∈ rows, r.length = g.nbytes
  sizes_eq : g.sizes = chrsRows.map List.length
  steps_pos : ∀ s ∈ g.steps, 1 ≤ s
  stream_eq : ∀ s ∈ g.steps, (g.bitmaps s).stream = writeStream chrsRows s
  blocks_eq : ∀ s ∈ g.steps, g.blocks s = (g.bitmaps s).blockEntries
  csizes_len : ∀ s ∈ g.steps, (g.bitmaps s).csizes.length = (g.bitmaps s).contents.length
  csizes_pos : ∀ s ∈ g.steps, ∀ x ∈ (g.bitmaps s).csizes, 0 < x

theorem div_add_div_le (a b n : Nat) : a / n + b / n ≤ (a + b) / n := by
  rcases Nat.eq_zero_or_pos n with h | h
  · subst h; simp
  · rw [Nat.le_div_iff_mul_le h, Nat.add_mul]
    have h1 := Nat.div_mul_le_self a n
    have h2 := Nat.div_mul_le_self b n
    omega

theorem flatten_length_of_width (n : Nat) (rs : List (List α))
    (h : ∀ r ∈ rs, r.length = n) : rs.flatten.length = n * rs.length := by
  induction rs with
  | nil => simp
  | cons r rs ih =>
      rw [List.flatten_cons, List.length_append, h r (List.mem_cons_self r rs),
        ih (fun q hq => h q (List.mem_cons_of_mem r hq)), List.length_cons,
        Nat.mul_succ]
      omega

theorem writeStream_flatten (chrsRows : List (List (List Nat))) (s : Nat) :
    writeStream chrsRows s = (stepRows chrsRows s).flatten.flatten := by
  induction chrsRows with
  | nil => rfl
  | cons rows rest ih =>
      show (everyNth s rows).flatten ++ writeStream rest s
          = ((everyNth s rows :: stepRows rest s).flatten).flatten
      rw [ih, List.flatten_cons, List.flatten_append]

theorem stepRows_width (g : GenomeR) (chrsRows : List (List (List Nat)))
    (hv : Valid g chrsRows) (s : Nat) :
    ∀ r ∈ (stepRows chrsRows s).flatten, r.length = g.nbytes := by
  intro r hr
  rcases List.mem_flatten.mp hr with ⟨rows, hrows, hrr⟩
  rcases List.mem_map.mp hrows with ⟨rows0, hrows0, hrfl⟩
  exact hv.row_width rows0 hrows0 r (mem_of_mem_everyNth s rows0 (hrfl ▸ hrr))

theorem offsets_eq_stepRows (g : GenomeR) (chrsRows : List (List (List Nat)))
    (hsz : g.sizes = chrsRows.map List.length) (s : Nat) (hs : 0 < s) (c : Nat) :
    g.offsets c s = (((stepRows chrsRows s).take c).map List.length).sum := by
  unfold GenomeR.offsets stepRows
  rw [hsz, ← List.map_take, ← List.map_take, List.map_map, List.map_map]
  congr 1
  apply List.map_congr_left
  intro rows _
  show stepSize rows.length s = (everyNth s rows).length
  rw [everyNth_length s hs rows]
  rfl

theorem stepRows_getD (chrsRows : List (List (List Nat))) (s c : Nat) :
    (stepRows chrsRows s).getD c [] = everyNth s (chrsRows.getD c []) := by
  rcases Nat.lt_or_ge c chrsRows.length with hc | hc
  · rw [List.getD_eq_getElem _ _ (by simp only [stepRows, List.length_map]; exact hc)]
    simp only [stepRows]
    rw [List.getElem_map, List.getD_eq_getElem _ _ hc]
  · rw [List.getD_eq_default _ _ (by simp only [stepRows, List.length_map]; exact hc),
      List.getD_eq_default _ _ hc, everyNth_nil]

/-- Master lemma for the read path: under the well-formedness invariants,
`_query_bytes` returns exactly the requested slice of the step-`bstep`
rows of chromosome `c`, subsampled by `step // bstep` when that stride
exceeds one. -/
theorem queryBytes_spec (g : GenomeR) (chrsRows : List (List (List Nat)))
    (hv : Valid g chrsRows) (c start stop step bstep : Nat)
    (hb : bstep ∈ g.steps) (hc : c < chrsRows.length)
    (hse : start ≤ stop) (hstop : stop ≤ (chrsRows.getD c []).length) :
    queryBytes g c start stop step bstep =
      Except.ok (if 1 < step / bstep then
          everyNth (step / bstep)
            (((everyNth bstep (chrsRows.getD c [])).drop (start / bstep)).take
              ((stop - start) / bstep))
        else
          ((everyNth bstep (chrsRows.getD c [])).drop (start / bstep)).take
            ((stop - start) / bstep)) := by
  have hbp : 0 < bstep := hv.steps_pos bstep hb
  have hnb : 0 < g.nbytes := by
    have := hv.one_genome
    rw [GenomeR.nbytes]
    omega
  set R := stepRows chrsRows bstep with hR
  set F := R.flatten with hF
  have hwidth : ∀ r ∈ F, r.length = g.nbytes := stepRows_width g chrsRows hv bstep
  have hoff : g.offsets c bstep = ((R.take c).map List.length).sum :=
    offsets_eq_stepRows g chrsRows hv.sizes_eq bstep hbp c
  set j := start / bstep with hj
  set len := (stop - start) / bstep with hlen
  have hstream : (g.bitmaps bstep).stream = F.flatten := by
    rw [hv.stream_eq bstep hb, writeStream_flatten]
  have hbuf : readRange (g.blocks bstep) (g.bitmaps bstep)
      (g.nbytes * (g.offsets c bstep + j)) (len * g.nbytes)
      = ((F.drop (g.offsets c bstep + j)).take len).flatten := by
    rw [hv.blocks_eq bstep hb,
      readRange_stream (g.bitmaps bstep) (hv.csizes_pos bstep hb)
        (hv.csizes_len bstep hb), hstream,
      flatten_drop_mul g.nbytes F hwidth (g.offsets c bstep + j),
      Nat.mul_comm len g.nbytes,
      flatten_take_mul g.nbytes (F.drop (g.offsets c bstep + j))
        (fun r hr => hwidth r (List.drop_subset _ F hr)) len]
  have hjlen : j + len ≤ (R.getD c []).length := by
    rw [hR, stepRows_getD, everyNth_length bstep hbp]
    have h1 : j + len ≤ stop / bstep := by
      have := div_add_div_le start (stop - start) bstep
      rw [hj, hlen]
      have heq : start + (stop - start) = stop := by omega
      rw [heq] at this
      exact this
    have h2 : stop / bstep ≤ (chrsRows.getD c []).length / bstep :=
      Nat.div_le_div_right hstop
    have h3 : (chrsRows.getD c []).length / bstep
        ≤ ((chrsRows.getD c []).length + bstep - 1) / bstep :=
      Nat.div_le_div_right (by omega)
    omega
  have hslice : (F.drop (g.offsets c bstep + j)).take len
      = ((everyNth bstep (chrsRows.getD c [])).drop j).take len := by
    rw [hF, hoff, flatten_slice R c j len (by rw [hR, stepRows, List.length_map]; exact hc)
      hjlen, hR, stepRows_getD]
  have hsub : ∀ r ∈ (F.drop (g.offsets c bstep + j)).take len, r.length = g.nbytes :=
    fun r hr => hwidth r (List.drop_subset _ F (List.take_subset _ _ hr))
  have hmod : (((F.drop (g.offsets c bstep + j)).take len).flatten).length % g.nbytes = 0 := by
    rw [flatten_length_of_width g.nbytes _ hsub, Nat.mul_mod_right]
  simp only [queryBytes]
  rw [if_neg (Nat.not_lt.mpr hse), ← hj, ← hlen, hbuf, if_pos hmod,
    chunk_flatten g.nbytes hnb _ hsub, hslice]

/-- Stream-level version of the master lemma: without any bound on `stop`,
`_query_bytes` returns the requested window of the step-`bstep` row stream
of the whole genome — silently crossing chromosome boundaries. -/
theorem queryBytes_stream_spec (g : GenomeR) (chrsRows : List (List (List Nat)))
    (hv : Valid g chrsRows) (c start stop step bstep : Nat)
    (hb : bstep ∈ g.steps) (hse : start ≤ stop) :
    queryBytes g c start stop step bstep =
      Except.ok (if 1 < step / bstep then
          everyNth (step / bstep)
            (((stepRows chrsRows bstep).flatten.drop
              (g.offsets c bstep + start / bstep)).take ((stop - start) / bstep))
        else
          ((stepRows chrsRows bstep).flatten.drop
            (g.offsets c bstep + start / bstep)).take ((stop - start) / bstep)) := by
  have hnb : 0 < g.nbytes := by
    have := hv.one_genome
    rw [GenomeR.nbytes]
    omega
  set F := (stepRows chrsRows bstep).flatten with hF
  have hwidth : ∀ r ∈ F, r.length = g.nbytes := stepRows_width g chrsRows hv bstep
  set j := start / bstep with hj
  set len := (stop - start) / bstep with hlen
  have hstream : (g.bitmaps bstep).stream = F.flatten := by
    rw [hv.stream_eq bstep hb, writeStream_flatten]
  have hbuf : readRange (g.blocks bstep) (g.bitmaps bstep)
      (g.nbytes * (g.offsets c bstep + j)) (len * g.nbytes)
      = ((F.drop (g.offsets c bstep + j)).take len).flatten := by
    rw [hv.blocks_eq bstep hb,
      readRange_stream (g.bitmaps bstep) (hv.csizes_pos bstep hb)
        (hv.csizes_len bstep hb), hstream,
      flatten_drop_mul g.nbytes F hwidth (g.offsets c bstep + j),
      Nat.mul_comm len g.nbytes,
      flatten_take_mul g.nbytes (F.drop (g.offsets c bstep + j))
        (fun r hr => hwidth r (List.drop_subset _ F hr)) len]
  have hsub : ∀ r ∈ (F.drop (g.offsets c bstep + j)).take len, r.length = g.nbytes :=
    fun r hr => hwidth r (List.drop_subset _ F (List.take_subset _ _ hr))
  have hmod : (((F.drop (g.offsets c bstep + j)).take len).flatten).length % g.nbytes = 0 := by
    rw [flatten_length_of_width g.nbytes _ hsub, Nat.mul_mod_right]
  simp only [queryBytes]
  rw [if_neg (Nat.not_lt.mpr hse), ← hj, ← hlen, hbuf, if_pos hmod,
    chunk_flatten g.nbytes hnb _ hsub]

/-- The `bstep` selection loop over the stored set `[1, L]`. -/
theorem selectBstep_two (L step : Nat) :
    selectBstep [1, L] step = if step % L = 0 then max 1 L else 1 := by
  simp [selectBstep, Nat.mod_one]

theorem selectBstep_one (L : Nat) : selectBstep [1, L] 1 = 1 := by
  rw [selectBstep_two]
  by_cases h : 1 % L = 0
  · have hL1 : L = 1 := by
      rcases Nat.lt_or_ge L 2 with h2 | h2
      · interval_cases L
        · simp at h
        · rfl
      · rw [Nat.mod_eq_of_lt (by omega)] at h
        omega
    subst hL1
    simp
  · rw [if_neg h]

theorem selectBstep_mem_two (L step : Nat) :
    selectBstep [1, L] step ∈ ([1, L] : List Nat) := by
  rw [selectBstep_two]
  by_cases h : step % L = 0
  · rw [if_pos h]
    rcases Nat.le_total 1 L with h1 | h1
    · rw [Nat.max_eq_right h1]
      simp
    · rw [Nat.max_eq_left h1]
      simp
  · rw [if_neg h]
    simp

theorem selectBstep_dvd_two (L step : Nat) :
    step % selectBstep [1, L] step = 0 := by
  rw [selectBstep_two]
  by_cases h : step % L = 0
  · rw [if_pos h]
    rcases Nat.lt_or_ge L 1 with h1 | h1
    · interval_cases L
      simp [Nat.mod_one]
    · rw [Nat.max_eq_right h1]
      exact h
  · rw [if_neg h]
    exact Nat.mod_one step

theorem selectBstep_coarsest_two (L step : Nat) :
    ∀ s ∈ ([1, L] : List Nat), step % s = 0 → s ≤ selectBstep [1, L] step := by
  intro s hs hdvd
  rw [selectBstep_two]
  rcases List.mem_cons.mp hs with h | h
  · subst h
    by_cases hL : step % L = 0
    · rw [if_pos hL]; omega
    · rw [if_neg hL]
  · have : s = L := by simpa using h
    subst this
    rw [if_pos hdvd]
    omega

theorem everyNth_map (f : α → β) (s : Nat) :
    (xs : List α) → everyNth s (xs.map f) = (everyNth s xs).map f
  | [] => by simp [everyNth_nil]
  | x :: xs => by
      rw [List.map_cons, everyNth_cons, everyNth_cons, List.map_cons,
        ← List.map_drop, everyNth_map f s (xs.drop (s - 1))]
termination_by xs => xs.length
decreasing_by simp; omega

theorem stepSize_zero (s : Nat) (hs : 0 < s) : stepSize 0 s = 0 := by
  unfold stepSize
  exact Nat.div_eq_of_lt (by omega)

theorem stepSize_pos_form (n s : Nat) (hn : 0 < n) (hs : 0 < s) :
    stepSize n s = (n - 1) / s + 1 := by
  unfold stepSize
  rw [show n + s - 1 = (n - 1) + 1 * s by omega, Nat.add_mul_div_right _ _ hs]

theorem stepSize_stepSize (n a b : Nat) (ha : 0 < a) (hb : 0 < b) :
    stepSize (stepSize n b) a = stepSize n (b * a) := by
  rcases Nat.eq_zero_or_pos n with hn | hn
  · subst hn
    rw [stepSize_zero b hb, stepSize_zero a ha, stepSize_zero (b * a) (by positivity)]
  · have h1 : 0 < stepSize n b := by
      rw [stepSize_pos_form n b hn hb]
      exact Nat.succ_pos _
    rw [stepSize_pos_form n b hn hb, stepSize_pos_form _ a (by rw [← stepSize_pos_form n b hn hb]; exact h1) ha,
      stepSize_pos_form n (b * a) hn (by positivity), Nat.add_sub_cancel,
      Nat.div_div_eq_div_mul]

theorem lt_stepSize_iff (s n i : Nat) (hs : 0 < s) :
    i < stepSize n s ↔ s * i < n := by
  unfold stepSize
  constructor
  · intro h
    have h1 : (i + 1) * s ≤ ((n + s - 1) / s) * s :=
      Nat.mul_le_mul_right s h
    have h2 : ((n + s - 1) / s) * s ≤ n + s - 1 := Nat.div_mul_le_self _ s
    rw [Nat.succ_mul] at h1
    have h3 : i * s = s * i := Nat.mul_comm i s
    omega
  · intro h
    rw [Nat.lt_iff_add_one_le, Nat.le_div_iff_mul_le hs, Nat.add_mul, Nat.one_mul]
    have h3 : i * s = s * i := Nat.mul_comm i s
    omega

theorem everyNth_take (s : Nat) (hs : 0 < s) [Inhabited α] (l : List α) (E : Nat)
    (hdvd : E % s = 0) (hE : E ≤ l.length) :
    (everyNth s l).take (E / s) = everyNth s (l.take E) := by
  obtain ⟨k, hk⟩ := Nat.dvd_of_mod_eq_zero hdvd
  subst hk
  have hkdiv : s * k / s = k := Nat.mul_div_cancel_left k hs
  apply List.ext_getElem
  · rw [List.length_take, everyNth_length s hs, everyNth_length s hs, List.length_take,
      Nat.min_eq_left hE]
    have h1 : s * k / s ≤ (l.length + s - 1) / s := by
      have h0 : s * k / s ≤ l.length / s := Nat.div_le_div_right hE
      have h2 : l.length / s ≤ (l.length + s - 1) / s := Nat.div_le_div_right (by omega)
      omega
    rw [Nat.min_eq_left h1, hkdiv,
      show s * k + s - 1 = s * k + (s - 1) by omega, Nat.mul_add_div hs,
      Nat.div_eq_of_lt (by omega : s - 1 < s)]
    omega
  · intro i h1 h2
    have hilt : i < k := by
      rw [List.length_take, everyNth_length s hs, hkdiv] at h1
      omega
    have hsi : s * i < s * k := mul_lt_mul_of_pos_left hilt hs
    rw [List.getElem_take, ← List.getD_eq_getElem (everyNth s l) default,
      ← List.getD_eq_getElem (everyNth s (l.take (s * k))) default,
      everyNth_getD s hs, everyNth_getD s hs,
      List.getD_eq_getElem _ default (show s * i < l.length by omega),
      List.getD_eq_getElem _ default
        (show s * i < (l.take (s * k)).length by rw [List.length_take]; omega),
      List.getElem_take]

theorem everyNth_everyNth (a b : Nat) (ha : 0 < a) (hb : 0 < b) [Inhabited α]
    (l : List α) : everyNth a (everyNth b l) = everyNth (b * a) l := by
  apply List.ext_getElem
  · rw [everyNth_length a ha, everyNth_length b hb, everyNth_length (b * a) (by positivity)]
    exact stepSize_stepSize l.length a b ha hb
  · intro i h1 h2
    rw [← List.getD_eq_getElem _ default, ← List.getD_eq_getElem _ default,
      everyNth_getD a ha, everyNth_getD b hb, everyNth_getD (b * a) (by positivity),
      Nat.mul_assoc]

/-!  ## Histogram arithmetic -/

theorem sum_map_add (l : List α) (f g : α → Nat) :
    (l.map (fun x => f x + g x)).sum = (l.map f).sum + (l.map g).sum := by
  induction l with
  | nil => simp
  | cons x l ih =>
      simp only [List.map_cons, List.sum_cons, ih]
      omega

theorem sum_indicator_range (B a : Nat) :
    ((List.range B).map (fun i => if a = i then 1 else 0)).sum
      = if a < B then 1 else 0 := by
  induction B with
  | zero => simp
  | succ B ih =>
      rw [List.range_succ, List.map_append, List.sum_append, ih]
      by_cases h2 : a = B
      · subst h2
        simp
      · by_cases h1 : a < B
        · have : a < B + 1 := by omega
          simp [h1, h2, this]
        · have : ¬ a < B + 1 := by omega
          simp [h1, h2, this]

theorem sum_indicator_range_succ (B a : Nat) :
    ((List.range B).map (fun i => if a = i + 1 then 1 else 0)).sum
      = if 1 ≤ a ∧ a < B + 1 then 1 else 0 := by
  induction B with
  | zero =>
      simp only [List.range_zero, List.map_nil, List.sum_nil]
      rw [if_neg (by omega)]
  | succ B ih =>
      rw [List.range_succ, List.map_append, List.sum_append, ih]
      by_cases h2 : a = B + 1
      · have hc1 : ¬ (1 ≤ a ∧ a < B + 1) := by omega
        have hc2 : 1 ≤ a ∧ a < B + 1 + 1 := by omega
        simp [h2, hc1, hc2]
      · by_cases h1 : 1 ≤ a ∧ a < B + 1
        · have hc2 : 1 ≤ a ∧ a < B + 1 + 1 := by omega
          simp [h1, h2, hc2]
        · have hc2 : ¬ (1 ≤ a ∧ a < B + 1 + 1) := by omega
          simp [h1, h2, hc2]

/-- Positions whose rows carry values `< B` are conserved: summing the
per-value counts over `0, …, B - 1` gives back the number of rows. -/
theorem sum_counts_range (B : Nat) (occs : List Nat) (h : ∀ v ∈ occs, v < B) :
    ((List.range B).map (fun i => occs.count i)).sum = occs.length := by
  induction occs with
  | nil => simp
  | cons a occs ih =>
      have ha : a < B := h a (List.mem_cons_self a occs)
      have h2 : ∀ v ∈ occs, v < B := fun v hv => h v (List.mem_cons_of_mem a hv)
      simp only [List.count_cons, beq_iff_eq]
      rw [sum_map_add, ih h2, sum_indicator_range, if_pos ha, List.length_cons]

theorem sum_counts_range_succ (G : Nat) (occs : List Nat)
    (h : ∀ v ∈ occs, 1 ≤ v ∧ v ≤ G) :
    ((List.range G).map (fun i => occs.count (i + 1))).sum = occs.length := by
  induction occs with
  | nil => simp
  | cons a occs ih =>
      have ha : 1 ≤ a ∧ a ≤ G := h a (List.mem_cons_self a occs)
      have h2 : ∀ v ∈ occs, 1 ≤ v ∧ v ≤ G := fun v hv => h v (List.mem_cons_of_mem a hv)
      simp only [List.count_cons, beq_iff_eq]
      rw [sum_map_add, ih h2, sum_indicator_range_succ,
        if_pos (by omega : 1 ≤ a ∧ a < G + 1), List.length_cons]

theorem foldl_set_length (tgt val : Nat → Nat) (vs : List Nat) (init : List Nat) :
    (vs.foldl (fun ret v => ret.set (tgt v) (val v)) init).length = init.length := by
  induction vs generalizing init with
  | nil => rfl
  | cons v vs ih =>
      rw [List.foldl_cons, ih, List.length_set]

theorem foldl_set_getD_miss (tgt val : Nat → Nat) (vs : List Nat) (init : List Nat)
    (i : Nat) (h : ∀ v ∈ vs, tgt v ≠ i) :
    (vs.foldl (fun ret v => ret.set (tgt v) (val v)) init).getD i 0 = init.getD i 0 := by
  induction vs generalizing init with
  | nil => rfl
  | cons v vs ih =>
      rw [List.foldl_cons, ih _ (fun w hw => h w (List.mem_cons_of_mem v hw)),
        List.getD_eq_getElem?_getD, List.getD_eq_getElem?_getD,
        List.getElem?_set_ne (h v (List.mem_cons_self v vs))]

theorem foldl_set_getD_hit (tgt val : Nat → Nat) :
    ∀ (vs : List Nat) (v0 i : Nat), v0 ∈ vs → tgt v0 = i →
      (∀ v ∈ vs, tgt v = i → v = v0) →
      ∀ init : List Nat, i < init.length →
        (vs.foldl (fun ret v => ret.set (tgt v) (val v)) init).getD i 0 = val v0 := by
  intro vs
  induction vs with
  | nil => intro v0 i h; exact absurd h (List.not_mem_nil v0)
  | cons v vs ih =>
      intro v0 i hv0 htgt huniq init hlen
      rw [List.foldl_cons]
      by_cases hmem : v0 ∈ vs
      · exact ih v0 i hmem htgt (fun u hu ht => huniq u (List.mem_cons_of_mem v hu) ht)
          (init.set (tgt v) (val v)) (by rw [List.length_set]; exact hlen)
      · have hveq : v = v0 := by
          rcases List.mem_cons.mp hv0 with h | h
          · exact h.symm
          · exact absurd h hmem
        subst hveq
        have hmiss : ∀ u ∈ vs, tgt u ≠ i := by
          intro u hu hti
          have := huniq u (List.mem_cons_of_mem v hu) hti
          exact hmem (this ▸ hu)
        rw [foldl_set_getD_miss tgt val vs _ i hmiss, htgt,
          List.getD_eq_getElem?_getD, List.getElem?_set_self (by omega),
          Option.getD_some]

theorem le_foldr_max (l : List Nat) : ∀ v ∈ l, v ≤ l.foldr max 0 := by
  induction l with
  | nil => intro v hv; exact absurd hv (List.not_mem_nil v)
  | cons x l ih =>
      intro v hv
      rcases List.mem_cons.mp hv with h | h
      · subst h
        exact le_max_left v (l.foldr max 0)
      · exact le_trans (ih v h) (le_max_right x (l.foldr max 0))

theorem mem_sortedUnique (occs : List Nat) (v : Nat) :
    v ∈ sortedUnique occs ↔ v ∈ occs := by
  unfold sortedUnique
  rw [List.mem_filter, List.mem_range]
  constructor
  · intro ⟨_, h2⟩
    exact List.elem_iff.mp h2
  · intro h
    refine ⟨by have := le_foldr_max occs v h; omega, List.elem_iff.mpr h⟩

theorem index_bitsum_count_length (G : Nat) (occs : List Nat) :
    (index_bitsum_count G occs).length = G := by
  unfold index_bitsum_count
  rw [foldl_set_length (fun v => if v = 0 then G - 1 else v - 1)
    (fun v => occs.count v) (sortedUnique occs) (List.replicate G 0),
    List.length_replicate]

/-- When every occurrence value lies in `[1, G]`, `Index.bitsum_count` is
the histogram `slot i ↦ count of value i + 1`. -/
theorem index_bitsum_count_eq (G : Nat) (occs : List Nat)
    (h : ∀ v ∈ occs, 1 ≤ v ∧ v ≤ G) :
    index_bitsum_count G occs = (List.range G).map (fun i => occs.count (i + 1)) := by
  apply List.ext_getElem
  · rw [index_bitsum_count_length, List.length_map, List.length_range]
  · intro i h1 h2
    have hiG : i < G := by rw [index_bitsum_count_length] at h1; exact h1
    rw [List.getElem_map, List.getElem_range, ← List.getD_eq_getElem _ 0 h1]
    unfold index_bitsum_count
    by_cases hmem : (i + 1) ∈ occs
    · exact foldl_set_getD_hit (fun v => if v = 0 then G - 1 else v - 1)
        (fun v => occs.count v) (sortedUnique occs) (i + 1) i
        ((mem_sortedUnique occs (i + 1)).mpr hmem)
        (by simp)
        (fun v hv ht => by
          have hvo := (mem_sortedUnique occs v).mp hv
          have hb := h v hvo
          simp only [] at ht
          rw [if_neg (by omega)] at ht
          omega)
        (List.replicate G 0) (by rw [List.length_replicate]; exact hiG)
    · have hmiss : ∀ v ∈ sortedUnique occs,
          (if v = 0 then G - 1 else v - 1) ≠ i := by
        intro v hv hti
        have hvo := (mem_sortedUnique occs v).mp hv
        have hb := h v hvo
        rw [if_neg (by omega)] at hti
        have : v = i + 1 := by omega
        exact hmem (this ▸ hvo)
      rw [foldl_set_getD_miss (fun v => if v = 0 then G - 1 else v - 1)
        (fun v => occs.count v) (sortedUnique occs) (List.replicate G 0) i hmiss,
        (List.count_eq_zero).mpr hmem]
      simp [List.getD_eq_getElem?_getD, List.getElem?_replicate, hiG]

/-!  ## A concrete two-chromosome genome used to instantiate the theorems

`gWr` holds the step-1 rows of a three-genome anchor with two
chromosomes (5 and 2 k-mer positions); the stored steps are `[1, 2]`, and
each bitmap file is split into two compressed blocks so that reads
exercise the block index. -/

def gWr : List (List (List Nat)) := [[[3], [3], [1], [6], [3]], [[5], [7]]]

def gWf1 : BgzFile := ⟨[10, 12], [[3, 3, 1], [6, 3, 5, 7]]⟩

def gWf2 : BgzFile := ⟨[9, 9], [[3, 1], [3, 5]]⟩

def gW : GenomeR where
  ngenomes := 3
  sizes := [5, 2]
  steps := [1, 2]
  bitmaps := fun s => if s = 2 then gWf2 else gWf1
  blocks := fun s => if s = 2 then gWf2.blockEntries else gWf1.blockEntries

theorem gW_valid : Valid gW gWr :=
  ⟨by decide, by decide, by decide, by decide, by decide, by decide, by decide,
    by decide⟩

/-!  ## Final helper lemmas for the claim theorems -/

theorem window_le_everyNth_length (l : List α) (start stop b : Nat) (hb : 0 < b)
    (hse : start ≤ stop) (hstop : stop ≤ l.length) :
    start / b + (stop - start) / b ≤ (everyNth b l).length := by
  rw [everyNth_length b hb]
  have h1 := div_add_div_le start (stop - start) b
  rw [show start + (stop - start) = stop by omega] at h1
  have h2 : stop / b ≤ l.length / b := Nat.div_le_div_right hstop
  have h3 : l.length / b ≤ (l.length + b - 1) / b := Nat.div_le_div_right (by omega)
  omega

theorem stepRows_one (chrsRows : List (List (List Nat))) :
    stepRows chrsRows 1 = chrsRows := by
  unfold stepRows
  rw [show chrsRows.map (everyNth 1) = chrsRows.map id from
    List.map_congr_left (fun rows _ => everyNth_one rows), List.map_id]

theorem bytesToBits_everyNth (G s : Nat) (l : List (List Nat)) :
    everyNth s (bytesToBits G l) = bytesToBits G (everyNth s l) := by
  unfold bytesToBits
  rw [everyNth_map]

/-- `Genome.query` at `step = 1` on the stored set `[1, L]` returns the
unpacked step-1 rows of the requested window. -/
theorem query_one_spec (g : GenomeR) (chrsRows : List (List (List Nat)))
    (hv : Valid g chrsRows) (L : Nat) (hsteps : g.steps = [1, L])
    (c a b : Nat) (hc : c < chrsRows.length) (hab : a ≤ b)
    (hble : b ≤ (chrsRows.getD c []).length) :
    g.query c (some a) (some b) 1
      = Except.ok (bytesToBits g.ngenomes
          (((chrsRows.getD c []).drop a).take (b - a))) := by
  have h1 : selectBstep g.steps 1 = 1 := by rw [hsteps]; exact selectBstep_one L
  have hmem : (1 : Nat) ∈ g.steps := by rw [hsteps]; simp
  simp only [GenomeR.query, Option.getD_some, h1]
  rw [queryBytes_spec g chrsRows hv c a b 1 1 hmem hc hab hble]
  rw [Nat.div_one, Nat.div_one, Nat.div_one, if_neg (by omega : ¬ (1 : Nat) < 1),
    everyNth_one]
  rfl

theorem toPairs_flatten_pairs :
    ∀ pairs : List (Nat × Nat),
      load_bgz_blocks.toPairs ((pairs.map (fun p => [p.1, p.2])).flatten) = pairs := by
  intro pairs
  induction pairs with
  | nil => rfl
  | cons p pairs ih =>
      rw [List.map_cons, List.flatten_cons]
      show (p.1, p.2) :: load_bgz_blocks.toPairs ((pairs.map (fun p => [p.1, p.2])).flatten)
          = p :: pairs
      rw [ih]

/-!  ## The claims -/

/-- C1: Round trip — for every chromosome, every step in the stored
resolution set, and every position `s * i` on that step's grid, reading
one row (`nbytes` bytes) back from the block-compressed bitmap at the
decompressed offset computed for that position yields byte-for-byte the
Presence Row originally packed and written at that position, and
unpacking it yields exactly that row's bit vector. -/
theorem round_trip_read (g : GenomeR) (chrsRows : List (List (List Nat)))
    (hv : Valid g chrsRows) (s : Nat) (hs : s ∈ g.steps) (c : Nat)
    (hc : c < chrsRows.length) (i : Nat)
    (hi : i < stepSize (chrsRows.getD c []).length s) :
    readRange (g.blocks s) (g.bitmaps s)
        (g.nbytes * (g.offsets c s + (s * i) / s)) g.nbytes
      = (chrsRows.getD c []).getD (s * i) []
    ∧ bytesToBits g.ngenomes
        (chunk g.nbytes (readRange (g.blocks s) (g.bitmaps s)
          (g.nbytes * (g.offsets c s + (s * i) / s)) g.nbytes))
      = [unpackRow g.ngenomes ((chrsRows.getD c []).getD (s * i) [])] := by
  have hsp : 0 < s := hv.steps_pos s hs
  have hnb : 0 < g.nbytes := by
    have := hv.one_genome
    rw [GenomeR.nbytes]
    omega
  have hdiv : s * i / s = i := Nat.mul_div_cancel_left i hsp
  set F := (stepRows chrsRows s).flatten with hF
  have hwidth : ∀ r ∈ F, r.length = g.nbytes := stepRows_width g chrsRows hv s
  have hoff : g.offsets c s = (((stepRows chrsRows s).take c).map List.length).sum :=
    offsets_eq_stepRows g chrsRows hv.sizes_eq s hsp c
  have hstream : (g.bitmaps s).stream = F.flatten := by
    rw [hv.stream_eq s hs, writeStream_flatten]
  have hrowlen : i < (everyNth s (chrsRows.getD c [])).length := by
    rw [everyNth_length s hsp]
    unfold stepSize at hi
    exact hi
  have hbuf : readRange (g.blocks s) (g.bitmaps s)
      (g.nbytes * (g.offsets c s + i)) g.nbytes
      = ((F.drop (g.offsets c s + i)).take 1).flatten := by
    rw [hv.blocks_eq s hs,
      readRange_stream (g.bitmaps s) (hv.csizes_pos s hs) (hv.csizes_len s hs),
      hstream, flatten_drop_mul g.nbytes F hwidth (g.offsets c s + i),
      show g.nbytes = g.nbytes * 1 from (Nat.mul_one g.nbytes).symm,
      flatten_take_mul g.nbytes (F.drop (g.offsets c s + i))
        (fun r hr => hwidth r (List.drop_subset _ F hr)) 1]
  have hslice : (F.drop (g.offsets c s + i)).take 1
      = ((everyNth s (chrsRows.getD c [])).drop i).take 1 := by
    rw [hF, hoff,
      flatten_slice (stepRows chrsRows s) c i 1
        (by simp only [stepRows, List.length_map]; exact hc)
        (by rw [stepRows_getD, everyNth_length s hsp]; unfold stepSize at hi; omega),
      stepRows_getD]
  have hrow : ((everyNth s (chrsRows.getD c [])).drop i).take 1
      = [(chrsRows.getD c []).getD (s * i) []] := by
    rw [List.drop_eq_getElem_cons hrowlen, List.take_succ_cons, List.take_zero,
      ← List.getD_eq_getElem _ [] hrowlen, everyNth_getD s hsp]
  have hmemc : chrsRows.getD c [] ∈ chrsRows := by
    rw [List.getD_eq_getElem _ [] hc]
    exact List.getElem_mem hc
  have hmemrow : (chrsRows.getD c []).getD (s * i) [] ∈ chrsRows.getD c [] := by
    have hsi : s * i < (chrsRows.getD c []).length := (lt_stepSize_iff s _ i hsp).mp hi
    rw [List.getD_eq_getElem _ [] hsi]
    exact List.getElem_mem hsi
  have hrw : ((chrsRows.getD c []).getD (s * i) []).length = g.nbytes :=
    hv.row_width _ hmemc _ hmemrow
  constructor
  · rw [hdiv, hbuf, hslice, hrow]
    simp
  · rw [hdiv, hbuf, hslice, hrow,
      chunk_flatten g.nbytes hnb [(chrsRows.getD c []).getD (s * i) []]
        (by intro r hr; rw [List.mem_singleton] at hr; rw [hr]; exact hrw)]
    rfl

/-- Witness for C1 at the concrete genome: step 2, chromosome 1, row 0
(which lives in the second compressed block of the step-2 file). -/
theorem round_trip_read_witness :
    (2 ∈ gW.steps ∧ 1 < gWr.length ∧ 0 < stepSize (gWr.getD 1 []).length 2)
    ∧ (readRange (gW.blocks 2) (gW.bitmaps 2)
          (gW.nbytes * (gW.offsets 1 2 + (2 * 0) / 2)) gW.nbytes
        = (gWr.getD 1 []).getD (2 * 0) []
      ∧ bytesToBits gW.ngenomes
          (chunk gW.nbytes (readRange (gW.blocks 2) (gW.bitmaps 2)
            (gW.nbytes * (gW.offsets 1 2 + (2 * 0) / 2)) gW.nbytes))
        = [unpackRow gW.ngenomes ((gWr.getD 1 []).getD (2 * 0) [])]) :=
  ⟨by decide, round_trip_read gW gWr gW_valid 2 (by decide) 1 (by decide) 0 (by decide)⟩

/-- C2 counterexample: the query engine performs no bounds check against
the chromosome length.  On the concrete genome, chromosome 0 has 5
positions, yet `query(0, 0, 6, 1)` is answered successfully — the sixth
returned row is the first row of chromosome 1, read past the chromosome
boundary — instead of failing with a range error. -/
theorem query_past_end_answered :
    gW.seqLen 0 = 5
    ∧ gW.query 0 (some 0) (some 6) 1
        = Except.ok [[true, true, false], [true, true, false], [true, false, false],
            [false, true, true], [true, true, false], [true, false, true]] :=
  ⟨rfl, rfl⟩

/-- C2 (amended): `query` performs no bounds checking against the
chromosome length.  `start == end` (within bounds) returns an empty
zero-row matrix without error; `start > end`, when the computed byte
offset lies within the decompressed stream, fails with the error raised
by the negative-length read — not a dedicated `RangeError`; and
`end > chromosome_length`, when the read window still lies within the
decompressed stream, is silently answered with bytes read past the
chromosome's region, never reported as an error.  (An offset past the
decompressed stream instead fails inside the BGZF seek — also not a
`RangeError` — which is outside `bgzfRead`'s faithful domain, hence the
in-stream bounds `h2b` and `h3b`.) -/
theorem query_bounds_behavior (g : GenomeR) (chrsRows : List (List (List Nat)))
    (hv : Valid g chrsRows) (L : Nat) (hsteps : g.steps = [1, L])
    (c : Nat) (hc : c < chrsRows.length)
    (pos step1 : Nat) (hpos : pos ≤ (chrsRows.getD c []).length)
    (s2 e2 step2 : Nat) (h2 : e2 < s2)
    (h2b : g.offsets c (selectBstep g.steps step2) + s2 / selectBstep g.steps step2
      ≤ (stepRows chrsRows (selectBstep g.steps step2)).flatten.length)
    (s3 e3 : Nat) (h3 : s3 ≤ e3)
    (h3b : g.offsets c 1 + e3 ≤ chrsRows.flatten.length) :
    g.query c (some pos) (some pos) step1 = Except.ok []
    ∧ g.query c (some s2) (some e2) step2 = Except.error QueryErr.negativeRead
    ∧ g.query c (some s3) (some e3) 1
        = Except.ok (bytesToBits g.ngenomes
            ((chrsRows.flatten.drop (g.offsets c 1 + s3)).take (e3 - s3))) := by
  refine ⟨?_, ?_, ?_⟩
  · have hmem : selectBstep g.steps step1 ∈ g.steps := by
      rw [hsteps]; exact selectBstep_mem_two L step1
    simp only [GenomeR.query, Option.getD_some]
    rw [queryBytes_spec g chrsRows hv c pos pos step1 _ hmem hc (Nat.le_refl pos) hpos]
    rw [Nat.sub_self, Nat.zero_div, List.take_zero]
    rcases Nat.lt_or_ge 1 (step1 / selectBstep g.steps step1) with h | h
    · rw [if_pos h, everyNth_nil]
      rfl
    · rw [if_neg (by omega)]
      rfl
  · simp only [GenomeR.query, Option.getD_some, queryBytes]
    rw [if_pos h2]
    rfl
  · have h1 : selectBstep g.steps 1 = 1 := by rw [hsteps]; exact selectBstep_one L
    have hmem : (1 : Nat) ∈ g.steps := by rw [hsteps]; simp
    simp only [GenomeR.query, Option.getD_some, h1]
    rw [queryBytes_stream_spec g chrsRows hv c s3 e3 1 1 hmem h3]
    rw [Nat.div_one, Nat.div_one, Nat.div_one, if_neg (by omega : ¬ (1 : Nat) < 1),
      stepRows_one]
    rfl

/-- Witness for C2 (amended) at the concrete genome: an empty query at
position 3, a reversed in-stream range, and a query whose end (6)
exceeds the chromosome length (5) but stays within the 7-row stream and
is silently answered from it. -/
theorem query_bounds_behavior_witness :
    (0 < gWr.length ∧ 3 ≤ (gWr.getD 0 []).length ∧ 1 < 3
      ∧ gW.offsets 0 (selectBstep gW.steps 1) + 3 / selectBstep gW.steps 1
          ≤ (stepRows gWr (selectBstep gW.steps 1)).flatten.length
      ∧ 0 ≤ 6 ∧ gW.offsets 0 1 + 6 ≤ gWr.flatten.length)
    ∧ (gW.query 0 (some 3) (some 3) 1 = Except.ok []
      ∧ gW.query 0 (some 3) (some 1) 1 = Except.error QueryErr.negativeRead
      ∧ gW.query 0 (some 0) (some 6) 1
          = Except.ok (bytesToBits gW.ngenomes
              ((gWr.flatten.drop (gW.offsets 0 1 + 0)).take (6 - 0)))) :=
  ⟨by decide, query_bounds_behavior gW gWr gW_valid 2 rfl 0 (by decide) 3 1 (by decide)
    3 1 1 (by decide) (by decide) 0 6 (by decide) (by decide)⟩

/-- C3: Resolution selection — on the stored resolution set `[1, L]`
produced by `_init_steps`, the engine reads from `bstep`, the coarsest
stored step that evenly divides the requested step; and since step 1 is
always stored, there is no requested step that no stored step divides, so
the unsupported-resolution failure case never arises (the selection loop
would otherwise silently fall back to `bstep = 1`). -/
theorem resolution_selection (L step : Nat)
    (g : GenomeR) (hsteps : g.steps = [1, L]) (c : Nat)
    (start stop : Option Nat) :
    selectBstep g.steps step ∈ g.steps
    ∧ step % selectBstep g.steps step = 0
    ∧ (∀ s ∈ g.steps, step % s = 0 → s ≤ selectBstep g.steps step)
    ∧ (∀ q : Nat, ¬ (∀ s ∈ g.steps, q % s ≠ 0))
    ∧ g.query c start stop step
        = (queryBytes g c (start.getD 0) (stop.getD (g.seqLen c)) step
            (selectBstep g.steps step)).map (bytesToBits g.ngenomes) := by
  refine ⟨?_, ?_, ?_, ?_, rfl⟩
  · rw [hsteps]; exact selectBstep_mem_two L step
  · rw [hsteps]; exact selectBstep_dvd_two L step
  · rw [hsteps]; exact selectBstep_coarsest_two L step
  · rw [hsteps]
    intro q hq
    exact hq 1 (by simp) (Nat.mod_one q)

/-- Witness for C3: the stored set `[1, 2]` of the concrete genome with
requested step 6 selects `bstep = 2`, the coarsest stored divisor. -/
theorem resolution_selection_witness :
    (gW.steps = [1, 2] ∧ True)
    ∧ (selectBstep gW.steps 6 ∈ gW.steps
      ∧ 6 % selectBstep gW.steps 6 = 0
      ∧ (∀ s ∈ gW.steps, 6 % s = 0 → s ≤ selectBstep gW.steps 6)
      ∧ (∀ q : Nat, ¬ (∀ s ∈ gW.steps, q % s ≠ 0))
      ∧ gW.query 0 none none 6
          = (queryBytes gW 0 (Option.getD none 0)
              (Option.getD none (gW.seqLen 0)) 6
              (selectBstep gW.steps 6)).map (bytesToBits gW.ngenomes)) :=
  ⟨⟨rfl, trivial⟩, resolution_selection 2 6 gW rfl 0 none none⟩

/-- C4 (code bug): for `G = 40` genomes the Bit Packer produces 8-byte
rows instead of the claimed `ceil(40 / 8) = 5` bytes.  With
`ceil(40 / 32) = 2` counter databases, the trim condition in
`_query_kmc_bytes` compares `db_i == len(self.kmc_dbs)` — but `db_i`
ranges over `range(len(self.kmc_dbs))` and never reaches it — so the
final group keeps 4 bytes instead of the `nbytes % 4 = 1` byte needed,
while the read path reshapes on `nbytes = 5` (width holds for `G ≤ 32`,
as the last conjunct shows for `G = 32`). -/
theorem bit_packer_width_bug :
    kmcBitvecCount 40 = 2
    ∧ (40 + 7) / 8 = 5
    ∧ (write_bitmap_rows 5 [[0], [0]]).map List.length = [8]
    ∧ group_bytes 5 2 0 = 4
    ∧ group_bytes 5 2 1 = 4
    ∧ (write_bitmap_rows 4 [[7]]).map List.length = [4] := by decide

/-- C5 counterexample: a presence row shared by zero genomes is NOT
excluded from the tabulations.  `Index.bitsum_count` records it under
index `G` (`ret[occs - 1]` wraps the numpy index `-1` around to the last
slot), and `Genome.bitsum_count` records it under key 0. -/
theorem zero_count_row_tabulated :
    ([[false, false, false]] : List (List Bool)).map occRow = [0]
    ∧ index_bitsum_count 3 [0] = [0, 0, 1]
    ∧ bitsum_count [0] 0 = 1 := by decide

/-- C5 (amended): `Index.bitsum_count` always returns a histogram of
fixed length `G` (conceptual indices 1..G); when every row's genome count
lies in `[1, G]` — as step-1 rows do, since they carry the anchor's own
bit — slot `i` holds the number of rows with count `i + 1` and the
histogram sums to the number of positions summarized.  Zero-count rows
are not excluded but mis-tabulated (see the counterexample). -/
theorem histogram_wellformed (G : Nat) (M : List (List Bool))
    (hocc : ∀ r ∈ M, 0 < occRow r) (hlen : ∀ r ∈ M, r.length ≤ G) :
    (index_bitsum_count G (M.map occRow)).length = G
    ∧ index_bitsum_count G (M.map occRow)
        = (List.range G).map (fun i => (M.map occRow).count (i + 1))
    ∧ (index_bitsum_count G (M.map occRow)).sum = M.length := by
  have hvals : ∀ v ∈ M.map occRow, 1 ≤ v ∧ v ≤ G := by
    intro v hv
    rcases List.mem_map.mp hv with ⟨r, hr, hrfl⟩
    subst hrfl
    exact ⟨hocc r hr, le_trans (List.count_le_length true r) (hlen r hr)⟩
  refine ⟨index_bitsum_count_length G _, index_bitsum_count_eq G _ hvals, ?_⟩
  rw [index_bitsum_count_eq G _ hvals, sum_counts_range_succ G _ hvals,
    List.length_map]

/-- Witness for C5 (amended) on the spec's concrete matrix rows. -/
theorem histogram_wellformed_witness :
    ((∀ r ∈ [[true, true, false], [true, false, false]], 0 < occRow r)
      ∧ (∀ r ∈ [[true, true, false], [true, false, false]], r.length ≤ 3))
    ∧ ((index_bitsum_count 3 ([[true, true, false], [true, false, false]].map occRow)).length = 3
      ∧ index_bitsum_count 3 ([[true, true, false], [true, false, false]].map occRow)
          = (List.range 3).map
              (fun i => ([[true, true, false], [true, false, false]].map occRow).count (i + 1))
      ∧ (index_bitsum_count 3 ([[true, true, false], [true, false, false]].map occRow)).sum
          = ([[true, true, false], [true, false, false]] : List (List Bool)).length) :=
  ⟨by decide, histogram_wellformed 3 [[true, true, false], [true, false, false]]
    (by decide) (by decide)⟩

/-- C6: Histogram additivity — for every chromosome and every partition
`[a, e) = [a, b) ∪ [b, e)` of an in-bounds position range, the occurrence
histogram returned by `query_occ_counts` over the whole range is, at
every value `v`, the sum of the histograms of the two sub-ranges. -/
theorem histogram_additivity (g : GenomeR) (chrsRows : List (List (List Nat)))
    (hv : Valid g chrsRows) (L : Nat) (hsteps : g.steps = [1, L])
    (c a b e : Nat) (hc : c < chrsRows.length) (hab : a ≤ b) (hbe : b ≤ e)
    (he : e ≤ (chrsRows.getD c []).length) (v : Nat) :
    g.query_occ_counts c (some a) (some e) 1
      = Except.ok (bitsum_count ((bytesToBits g.ngenomes
          (((chrsRows.getD c []).drop a).take (e - a))).map occRow))
    ∧ g.query_occ_counts c (some a) (some b) 1
      = Except.ok (bitsum_count ((bytesToBits g.ngenomes
          (((chrsRows.getD c []).drop a).take (b - a))).map occRow))
    ∧ g.query_occ_counts c (some b) (some e) 1
      = Except.ok (bitsum_count ((bytesToBits g.ngenomes
          (((chrsRows.getD c []).drop b).take (e - b))).map occRow))
    ∧ bitsum_count ((bytesToBits g.ngenomes
          (((chrsRows.getD c []).drop a).take (e - a))).map occRow) v
      = bitsum_count ((bytesToBits g.ngenomes
            (((chrsRows.getD c []).drop a).take (b - a))).map occRow) v
        + bitsum_count ((bytesToBits g.ngenomes
            (((chrsRows.getD c []).drop b).take (e - b))).map occRow) v := by
  have hq1 := query_one_spec g chrsRows hv L hsteps c a e hc (by omega) he
  have hq2 := query_one_spec g chrsRows hv L hsteps c a b hc hab (by omega)
  have hq3 := query_one_spec g chrsRows hv L hsteps c b e hc hbe he
  have hsplit : ((chrsRows.getD c []).drop a).take (e - a)
      = ((chrsRows.getD c []).drop a).take (b - a)
        ++ ((chrsRows.getD c []).drop b).take (e - b) := by
    rw [show e - a = (b - a) + (e - b) by omega, List.take_add, List.drop_drop,
      show a + (b - a) = b by omega]
  refine ⟨?_, ?_, ?_, ?_⟩
  · simp only [GenomeR.query_occ_counts]
    rw [hq1]
    rfl
  · simp only [GenomeR.query_occ_counts]
    rw [hq2]
    rfl
  · simp only [GenomeR.query_occ_counts]
    rw [hq3]
    rfl
  · rw [hsplit]
    unfold bytesToBits bitsum_count
    rw [List.map_append, List.map_append, List.count_append]

/-- Witness for C6: partitioning positions `[1, 5)` of chromosome 0 of
the concrete genome at 3, checked at occurrence value 2. -/
theorem histogram_additivity_witness :
    (gW.steps = [1, 2] ∧ 0 < gWr.length ∧ 1 ≤ 3 ∧ 3 ≤ 5 ∧ 5 ≤ (gWr.getD 0 []).length)
    ∧ (gW.query_occ_counts 0 (some 1) (some 5) 1
        = Except.ok (bitsum_count ((bytesToBits gW.ngenomes
            (((gWr.getD 0 []).drop 1).take (5 - 1))).map occRow))
      ∧ gW.query_occ_counts 0 (some 1) (some 3) 1
        = Except.ok (bitsum_count ((bytesToBits gW.ngenomes
            (((gWr.getD 0 []).drop 1).take (3 - 1))).map occRow))
      ∧ gW.query_occ_counts 0 (some 3) (some 5) 1
        = Except.ok (bitsum_count ((bytesToBits gW.ngenomes
            (((gWr.getD 0 []).drop 3).take (5 - 3))).map occRow))
      ∧ bitsum_count ((bytesToBits gW.ngenomes
            (((gWr.getD 0 []).drop 1).take (5 - 1))).map occRow) 2
        = bitsum_count ((bytesToBits gW.ngenomes
              (((gWr.getD 0 []).drop 1).take (3 - 1))).map occRow) 2
          + bitsum_count ((bytesToBits gW.ngenomes
              (((gWr.getD 0 []).drop 3).take (5 - 3))).map occRow) 2) :=
  ⟨by decide, histogram_additivity gW gWr gW_valid 2 rfl 0 1 3 5 (by decide) (by decide)
    (by decide) (by decide) 2⟩

/-- C7: Offset computation — for every valid query mapped to stored
resolution `bstep`, the decompressed read begins at byte
`nbytes * (offsets[c][bstep] + start / bstep)` — i.e. the result is the
window of the step-`bstep` row stream starting at row
`offsets[c][bstep] + start / bstep` — covers exactly
`(end - start) / bstep` rows of `nbytes` bytes, and when
`step / bstep > 1` every `(step / bstep)`-th decoded row is kept before
unpacking. -/
theorem query_offset_rows_subsample (g : GenomeR) (chrsRows : List (List (List Nat)))
    (hv : Valid g chrsRows) (c start stop step : Nat)
    (hb : selectBstep g.steps step ∈ g.steps) (hc : c < chrsRows.length)
    (hse : start ≤ stop) (hstop : stop ≤ (chrsRows.getD c []).length) :
    queryBytes g c start stop step (selectBstep g.steps step) =
      Except.ok (if 1 < step / selectBstep g.steps step then
          everyNth (step / selectBstep g.steps step)
            (((everyNth (selectBstep g.steps step) (chrsRows.getD c [])).drop
              (start / selectBstep g.steps step)).take
              ((stop - start) / selectBstep g.steps step))
        else
          ((everyNth (selectBstep g.steps step) (chrsRows.getD c [])).drop
            (start / selectBstep g.steps step)).take
            ((stop - start) / selectBstep g.steps step))
    ∧ (((everyNth (selectBstep g.steps step) (chrsRows.getD c [])).drop
          (start / selectBstep g.steps step)).take
          ((stop - start) / selectBstep g.steps step)).length
        = (stop - start) / selectBstep g.steps step := by
  have hbp : 0 < selectBstep g.steps step := hv.steps_pos _ hb
  constructor
  · exact queryBytes_spec g chrsRows hv c start stop step _ hb hc hse hstop
  · rw [List.length_take, List.length_drop]
    have := window_le_everyNth_length (chrsRows.getD c []) start stop _ hbp hse hstop
    omega

/-- Witness for C7: requesting step 4 with stored steps `[1, 2]` maps to
`bstep = 2` and subsamples every second decoded row. -/
theorem query_offset_rows_subsample_witness :
    (selectBstep gW.steps 4 ∈ gW.steps ∧ 0 < gWr.length ∧ 0 ≤ 4
      ∧ 4 ≤ (gWr.getD 0 []).length)
    ∧ (queryBytes gW 0 0 4 4 (selectBstep gW.steps 4) =
        Except.ok (if 1 < 4 / selectBstep gW.steps 4 then
            everyNth (4 / selectBstep gW.steps 4)
              (((everyNth (selectBstep gW.steps 4) (gWr.getD 0 [])).drop
                (0 / selectBstep gW.steps 4)).take
                ((4 - 0) / selectBstep gW.steps 4))
          else
            ((everyNth (selectBstep gW.steps 4) (gWr.getD 0 [])).drop
              (0 / selectBstep gW.steps 4)).take
              ((4 - 0) / selectBstep gW.steps 4))
      ∧ (((everyNth (selectBstep gW.steps 4) (gWr.getD 0 [])).drop
            (0 / selectBstep gW.steps 4)).take
            ((4 - 0) / selectBstep gW.steps 4)).length
          = (4 - 0) / selectBstep gW.steps 4) :=
  ⟨by decide, query_offset_rows_subsample gW gWr gW_valid 0 0 4 4 (by decide) (by decide)
    (by decide) (by decide)⟩

/-- C8: Block-index load and seek — loading the `.gzi` file reads a block
count then that many (compressed offset, decompressed offset) pairs and
prepends a synthetic `(0, 0)` entry, recovering the file's block boundary
list; for every in-bounds decompressed target offset `t`, the decoder
selects the last index entry whose decompressed offset is `≤ t` (an exact
match selecting that entry) and seeks to the composite position formed
from that entry's compressed block start and the in-block byte delta. -/
theorem block_index_load_seek (f : BgzFile) (pairs : List (Nat × Nat))
    (hpairs : f.blockEntries = (0, 0) :: pairs)
    (hcs : ∀ x ∈ f.csizes, 0 < x) (hlen : f.csizes.length = f.contents.length)
    (hblocks : ∀ bb ∈ f.contents, bb ≠ ([] : List Nat)) (t n : Nat)
    (ht : t < f.stream.length) :
    load_bgz_blocks (gziWords pairs) = f.blockEntries
    ∧ (f.blockEntries.getD
        (searchsortedRight (f.blockEntries.map Prod.snd) t - 1) (0, 0)).2 ≤ t
    ∧ (∀ j, j < f.blockEntries.length →
        (f.blockEntries.getD j (0, 0)).2 ≤ t →
        j ≤ searchsortedRight (f.blockEntries.map Prod.snd) t - 1)
    ∧ (∀ j, j < f.blockEntries.length →
        (f.blockEntries.getD j (0, 0)).2 = t →
        searchsortedRight (f.blockEntries.map Prod.snd) t - 1 = j)
    ∧ readRange f.blockEntries f t n
        = bgzfRead f
            (f.blockEntries.getD
              (searchsortedRight (f.blockEntries.map Prod.snd) t - 1) (0, 0)).1
            (t - (f.blockEntries.getD
              (searchsortedRight (f.blockEntries.map Prod.snd) t - 1) (0, 0)).2)
            n := by
  have hload : load_bgz_blocks (gziWords pairs) = (0, 0) :: pairs := by
    unfold load_bgz_blocks gziWords
    have hflen : ((pairs.map (fun p => [p.1, p.2])).flatten).length = 2 * pairs.length := by
      rw [flatten_length_of_width 2 _
        (by intro r hr; rcases List.mem_map.mp hr with ⟨p, _, hp⟩; rw [← hp]; rfl),
        List.length_map]
    simp only [List.headD_cons, List.drop_succ_cons, List.drop_zero]
    rw [List.take_of_length_le (by rw [hflen]), toPairs_flatten_pairs]
  set m := f.contents.length with hm
  have hmpos : 0 < m := by
    by_contra h
    have hnil : f.contents = [] := List.eq_nil_of_length_eq_zero (by omega)
    rw [BgzFile.stream, hnil] at ht
    simp at ht
  set dlens := f.contents.map List.length with hdl
  set ds := cumsum dlens with hds
  set cs := cumsum f.csizes with hcs2
  have hdll : dlens.length = m := by rw [hdl, List.length_map]
  have hdsl : ds.length = m := by rw [hds, cumsum_length, hdll]
  have hcsl : cs.length = m := by rw [hcs2, cumsum_length, hlen]
  have hbel : f.blockEntries.length = m := by
    rw [BgzFile.blockEntries, List.length_zip, cumsum_length, cumsum_length,
      List.length_map, hlen, Nat.min_self]
  have hsnd : f.blockEntries.map Prod.snd = ds := by
    rw [BgzFile.blockEntries, ← hds, ← hcs2, zip_map_snd cs ds (by omega)]
  have hpw : List.Pairwise (fun a b => a ≤ b) ds := by
    rw [hds]; exact cumsum_pairwise_le _
  set k := searchsortedRight ds t with hk
  have hkeq : ds.countP (fun x => decide (x ≤ t)) = k := by rw [hk, searchsortedRight]
  have hds0 : ds.getD 0 0 ≤ t := by
    rw [hds, cumsum_getD _ 0 (by omega)]
    simp
  have hkpos : 0 < k := by
    rw [hk, searchsortedRight]
    exact (sorted_countP_iff t ds hpw 0 (by omega)).mp hds0
  have hkle : k ≤ m := by
    rw [hk, searchsortedRight, ← hdsl]
    exact List.countP_le_length _
  have hgetD : ∀ j, j < m → f.blockEntries.getD j (0, 0) = (cs.getD j 0, ds.getD j 0) := by
    intro j hj
    rw [BgzFile.blockEntries, ← hds, ← hcs2]
    exact zip_getD cs ds j (by omega) (by omega)
  have hdpos : ∀ x ∈ dlens, 0 < x := by
    intro x hx
    rw [hdl] at hx
    rcases List.mem_map.mp hx with ⟨bb, hbb, hxl⟩
    rw [← hxl]
    exact List.length_pos.mpr (hblocks bb hbb)
  have hdsblk : ds.getD (k - 1) 0 ≤ t :=
    (sorted_countP_iff t ds hpw (k - 1) (by omega)).mpr (by rw [hkeq]; omega)
  refine ⟨hload.trans hpairs.symm, ?_, ?_, ?_, rfl⟩
  · rw [hsnd, ← hk, hgetD (k - 1) (by omega)]
    exact hdsblk
  · intro j hj hle
    rw [hbel] at hj
    rw [hgetD j hj] at hle
    have := (sorted_countP_iff t ds hpw j (by omega)).mp hle
    rw [hkeq] at this
    rw [hsnd, ← hk]
    omega
  · intro j hj heq
    rw [hbel] at hj
    rw [hgetD j hj] at heq
    have hjle : j ≤ k - 1 := by
      have := (sorted_countP_iff t ds hpw j (by omega)).mp (by omega)
      rw [hkeq] at this
      omega
    rw [hsnd, ← hk]
    rcases Nat.lt_or_ge j (k - 1) with hlt | hge
    · exfalso
      have hstrict : ds.getD j 0 < ds.getD (k - 1) 0 := by
        rw [hds, cumsum_getD _ j (by omega), cumsum_getD _ (k - 1) (by omega)]
        exact sum_take_lt_sum_take dlens hdpos j (k - 1) hlt (by omega)
      omega
    · omega

/-- Witness for C8: target offset 4 of the concrete step-1 bitmap file
falls in the second block, whose index entry is `(10, 3)`. -/
theorem block_index_load_seek_witness :
    (gWf1.blockEntries = (0, 0) :: [(10, 3)]
      ∧ (∀ x ∈ gWf1.csizes, 0 < x)
      ∧ gWf1.csizes.length = gWf1.contents.length
      ∧ (∀ bb ∈ gWf1.contents, bb ≠ ([] : List Nat))
      ∧ 4 < gWf1.stream.length)
    ∧ (load_bgz_blocks (gziWords [(10, 3)]) = gWf1.blockEntries
      ∧ (gWf1.blockEntries.getD
          (searchsortedRight (gWf1.blockEntries.map Prod.snd) 4 - 1) (0, 0)).2 ≤ 4
      ∧ (∀ j, j < gWf1.blockEntries.length →
          (gWf1.blockEntries.getD j (0, 0)).2 ≤ 4 →
          j ≤ searchsortedRight (gWf1.blockEntries.map Prod.snd) 4 - 1)
      ∧ (∀ j, j < gWf1.blockEntries.length →
          (gWf1.blockEntries.getD j (0, 0)).2 = 4 →
          searchsortedRight (gWf1.blockEntries.map Prod.snd) 4 - 1 = j)
      ∧ readRange gWf1.blockEntries gWf1 4 2
          = bgzfRead gWf1
              (gWf1.blockEntries.getD
                (searchsortedRight (gWf1.blockEntries.map Prod.snd) 4 - 1) (0, 0)).1
              (4 - (gWf1.blockEntries.getD
                (searchsortedRight (gWf1.blockEntries.map Prod.snd) 4 - 1) (0, 0)).2)
              2) :=
  ⟨by decide, block_index_load_seek gWf1 [(10, 3)] (by decide) (by decide) (by decide)
    (by decide) 4 2 (by decide)⟩

/-- C9 counterexample: with stored steps `[1, 2]` and chromosome 0 of
length 5, querying directly at step 2 returns `5 / 2 = 2` rows (the read
length floors), while querying at step 1 and keeping the rows at
positions `{0, 2, 4}` returns `ceil(5 / 2) = 3` rows — the two presence
matrices differ. -/
theorem resolution_consistency_cx :
    gW.query 0 none none 2 = Except.ok [[true, true, false], [true, false, false]]
    ∧ (gW.query 0 none none 1).map (everyNth 2)
        = Except.ok [[true, true, false], [true, false, false], [true, true, false]]
    ∧ ([[true, true, false], [true, false, false]] : List (List Bool))
        ≠ [[true, true, false], [true, false, false], [true, true, false]] :=
  ⟨rfl, rfl, by decide⟩

/-- C9 (amended): resolution consistency holds on ranges the coarse
stream fully covers — for every step `s ≥ 1` that divides the range
length `E` (with `E` within the chromosome), querying `[0, E)` directly
at step `s` equals querying at step 1 and keeping the rows at positions
`{0, s, 2s, …}`; without the divisibility condition the direct query
drops the final partial stride (see the counterexample). -/
theorem resolution_consistency (g : GenomeR) (chrsRows : List (List (List Nat)))
    (hv : Valid g chrsRows) (L : Nat) (hsteps : g.steps = [1, L])
    (c E s : Nat) (hc : c < chrsRows.length) (hE : E ≤ (chrsRows.getD c []).length)
    (hs : 0 < s) (hdvd : E % s = 0) :
    g.query c (some 0) (some E) s = (g.query c (some 0) (some E) 1).map (everyNth s) := by
  rw [query_one_spec g chrsRows hv L hsteps c 0 E hc (Nat.zero_le E) hE]
  show _ = Except.ok (everyNth s (bytesToBits g.ngenomes
    (((chrsRows.getD c []).drop 0).take (E - 0))))
  rw [List.drop_zero, Nat.sub_zero, bytesToBits_everyNth]
  simp only [GenomeR.query, Option.getD_some]
  have hmem : selectBstep g.steps s ∈ g.steps := by
    rw [hsteps]; exact selectBstep_mem_two L s
  have hbpos : 0 < selectBstep g.steps s := hv.steps_pos _ hmem
  have hbdvd : selectBstep g.steps s ∣ s :=
    Nat.dvd_of_mod_eq_zero (by rw [hsteps]; exact selectBstep_dvd_two L s)
  have hEdvd : E % selectBstep g.steps s = 0 := by
    obtain ⟨q, hq⟩ := hbdvd.trans (Nat.dvd_of_mod_eq_zero hdvd)
    rw [hq]
    exact Nat.mul_mod_right _ _
  rw [queryBytes_spec g chrsRows hv c 0 E s (selectBstep g.steps s) hmem hc
    (Nat.zero_le E) hE]
  simp only [Nat.zero_div, Nat.sub_zero, List.drop_zero]
  rw [everyNth_take (selectBstep g.steps s) hbpos (chrsRows.getD c []) E hEdvd hE]
  by_cases hlt : 1 < s / selectBstep g.steps s
  · rw [if_pos hlt, everyNth_everyNth (s / selectBstep g.steps s)
      (selectBstep g.steps s) (by omega) hbpos, Nat.mul_div_cancel' hbdvd]
    rfl
  · rw [if_neg hlt]
    have hq : 0 < s / selectBstep g.steps s :=
      Nat.div_pos (Nat.le_of_dvd hs hbdvd) hbpos
    have h1 : s / selectBstep g.steps s = 1 := by omega
    have hsB : selectBstep g.steps s = s := by
      have h2 := Nat.mul_div_cancel' hbdvd
      rw [h1, Nat.mul_one] at h2
      exact h2
    rw [hsB]
    rfl

/-- Witness for C9 (amended): `[0, 4)` at step 2 on the concrete genome
agrees with the step-1 query subsampled at stride 2. -/
theorem resolution_consistency_witness :
    (gW.steps = [1, 2] ∧ 0 < gWr.length ∧ 4 ≤ (gWr.getD 0 []).length
      ∧ 0 < 2 ∧ 4 % 2 = 0)
    ∧ gW.query 0 (some 0) (some 4) 2
        = (gW.query 0 (some 0) (some 4) 1).map (everyNth 2) :=
  ⟨by decide, resolution_consistency gW gWr gW_valid 2 rfl 0 4 2 (by decide) (by decide)
    (by decide) (by decide)⟩

/-- C10: Conservation of positions in the occurrence counts — for every
valid query returning presence matrix `M`, `query_occ_counts` returns the
`value_counts` table of the per-row genome counts, and its values summed
over all possible counts `0, …, G` equal the number of rows of `M`: every
queried position, including zero-genome positions (tabulated under key
0), contributes to exactly one entry. -/
theorem occ_counts_conservation (g : GenomeR) (chrsRows : List (List (List Nat)))
    (hv : Valid g chrsRows) (L : Nat) (hsteps : g.steps = [1, L])
    (c start stop step : Nat) (hc : c < chrsRows.length) (hse : start ≤ stop)
    (hstop : stop ≤ (chrsRows.getD c []).length)
    (M : List (List Bool))
    (hM : g.query c (some start) (some stop) step = Except.ok M) :
    g.query_occ_counts c (some start) (some stop) step
      = Except.ok (bitsum_count (M.map occRow))
    ∧ ((List.range (g.ngenomes + 1)).map (bitsum_count (M.map occRow))).sum
        = M.length := by
  constructor
  · simp only [GenomeR.query_occ_counts]
    rw [hM]
    rfl
  · have hmem : selectBstep g.steps step ∈ g.steps := by
      rw [hsteps]; exact selectBstep_mem_two L step
    have hq : g.query c (some start) (some stop) step
        = Except.ok (bytesToBits g.ngenomes
            (if 1 < step / selectBstep g.steps step then
              everyNth (step / selectBstep g.steps step)
                (((everyNth (selectBstep g.steps step) (chrsRows.getD c [])).drop
                  (start / selectBstep g.steps step)).take
                  ((stop - start) / selectBstep g.steps step))
            else
              ((everyNth (selectBstep g.steps step) (chrsRows.getD c [])).drop
                (start / selectBstep g.steps step)).take
                ((stop - start) / selectBstep g.steps step))) := by
      simp only [GenomeR.query, Option.getD_some]
      rw [queryBytes_spec g chrsRows hv c start stop step _ hmem hc hse hstop]
      rfl
    rw [hM] at hq
    have hMeq := Except.ok.inj hq
    have hval : ∀ v ∈ M.map occRow, v < g.ngenomes + 1 := by
      intro v hv2
      rcases List.mem_map.mp hv2 with ⟨r, hr, hrfl⟩
      subst hrfl
      rw [hMeq] at hr
      rcases List.mem_map.mp hr with ⟨row, _, hrow⟩
      have hlen : r.length ≤ g.ngenomes := by
        rw [← hrow, List.length_take]
        exact min_le_left _ _
      have hcount : occRow r ≤ r.length := List.count_le_length true r
      omega
    have hsum := sum_counts_range (g.ngenomes + 1) (M.map occRow) hval
    rw [List.length_map] at hsum
    exact hsum

/-- Witness for C10: the step-2 query over `[0, 5)` of chromosome 0
returns two rows with counts 2 and 1; the counts table sums to 2. -/
theorem occ_counts_conservation_witness :
    (gW.steps = [1, 2] ∧ 0 < gWr.length ∧ 0 ≤ 5 ∧ 5 ≤ (gWr.getD 0 []).length
      ∧ gW.query 0 (some 0) (some 5) 2
          = Except.ok [[true, true, false], [true, false, false]])
    ∧ (gW.query_occ_counts 0 (some 0) (some 5) 2
        = Except.ok (bitsum_count
            (([[true, true, false], [true, false, false]] : List (List Bool)).map occRow))
      ∧ ((List.range (gW.ngenomes + 1)).map (bitsum_count
          (([[true, true, false], [true, false, false]] : List (List Bool)).map occRow))).sum
        = ([[true, true, false], [true, false, false]] : List (List Bool)).length) :=
  ⟨⟨rfl, by decide, by decide, by decide, rfl⟩,
    occ_counts_conservation gW gWr gW_valid 2 rfl 0 0 5 2 (by decide) (by decide)
      (by decide) [[true, true, false], [true, false, false]] rfl⟩

end Panagram
